import Mathlib

/-!
Verification of the action dependency graph engine of the vemsimbora admin
panel. The definitions below are shallow embeddings of the TypeScript
functions in:

* src/services/TaskService.ts — validateActionDependencies,
  checkForDependencyCycles, completeTaskAction, uncompleteTaskAction,
  getAvailableActions, getTaskWorkflowStats;
* src/pages/admin/CreateActionTemplate.tsx — checkForDependencyCycles,
  handleUpdateDependencies, WorkflowVisualizer.organizeActions;
* src/components/workflow/WorkflowVisualizer.tsx — actionLevels;
* src/components/workflow/DependencyEditor.tsx — handleSave;
* src/services/ActionTemplateService.ts — validateActionDependencies,
  checkForDependencyCycles.

JavaScript idioms are modelled as follows: optional array fields become
Option (List _) (an absent field and an empty array are distinguished,
exactly as the code distinguishes them via truthiness checks); thrown
exceptions become Except; the recursive closures mutating the shared
visited / recursionStack sets become functions threading those sets
explicitly, with a fuel parameter standing in for the implicit call stack
(the fuel is provably sufficient, see the fuel lemmas below); a JavaScript
Map built with repeated set calls resolves a key to the LAST entry written
for it, hence the lookups below search the reversed action list.
-/

/-- Mirror of the relevant fields of the data payload object of a TaskAction
(data.fileURLs and data.steps are the only fields the engine touches). -/
structure ActionData where
  fileURLs : Option (List String) := none
  steps : Option (List String) := none
deriving Repr, DecidableEq

/-- Mirror of the TaskAction record of src/types/firestore-schema.ts,
restricted to the fields the dependency graph engine reads or writes. -/
structure TaskAction where
  id : String
  type : String := "text"
  title : String := ""
  completed : Bool := false
  completedAt : Option Nat := none
  completedBy : Option String := none
  dependsOn : Option (List String) := none
  nextActions : Option (List String) := none
  hasAttachments : Bool := false
  attachments : Option (List String) := none
  data : Option ActionData := none
deriving Repr, DecidableEq

/-- The dependsOn list of an action, with an absent field read as the empty
list (the code guards every use with a truthiness or optional-chaining
check whose behaviour coincides with this reading). -/
def getDeps (a : TaskAction) : List String :=
  a.dependsOn.getD []

/-- The nextActions list of an action, absent field read as empty. -/
def getNexts (a : TaskAction) : List String :=
  a.nextActions.getD []

/-- The list of ids of an action collection
(actions.map(action => action.id)). -/
def actionIdsOf (actions : List TaskAction) : List String :=
  actions.map (fun a => a.id)

/-- Lookup in a JavaScript Map built by
actions.forEach(action => actionMap.set(action.id, action)):
a later entry overwrites an earlier one, so the lookup finds the last
action carrying the id. -/
def actionMapGet (actions : List TaskAction) (i : String) : Option TaskAction :=
  actions.reverse.find? (fun a => a.id = i)

/-- The dependsOn adjacency read through the actionMap
(the graph followed by TaskService.checkForDependencyCycles). -/
def mapDeps (actions : List TaskAction) (i : String) : List String :=
  match actionMapGet actions i with
  | some a => getDeps a
  | none => []

/-- The nextActions adjacency read through the actionMap
(the graph followed by ActionTemplateService.checkForDependencyCycles). -/
def mapNexts (actions : List TaskAction) (i : String) : List String :=
  match actionMapGet actions i with
  | some a => getNexts a
  | none => []

/-- Specification-level edge relation of the dependsOn graph: x depends
directly on y when some action of the collection has id x and lists y in
its dependsOn. -/
def DependsEdge (actions : List TaskAction) (x y : String) : Prop :=
  ∃ a, a ∈ actions ∧ a.id = x ∧ y ∈ getDeps a

/-- The dependsOn relation of the collection has a cycle: some id depends
transitively on itself. -/
def HasDependsCycle (actions : List TaskAction) : Prop :=
  ∃ x, Relation.TransGen (DependsEdge actions) x x

/-- Acyclicity of the dependsOn relation. -/
def AcyclicDeps (actions : List TaskAction) : Prop :=
  ¬ HasDependsCycle actions

/-- Edge relation of an adjacency function g : each y listed by g x. -/
def GEdge (g : String → List String) (x y : String) : Prop :=
  y ∈ g x

/-- Error values thrown by the validation routines. -/
inductive GraphError where
  | missingDep (actionId depId : String)
  | missingNext (actionId nextId : String)
  | cycle (actionId depId : String)
  | fuelExhausted
deriving Repr, DecidableEq

/-! ### The throw-style DFS shared by TaskService.checkForDependencyCycles,
CreateActionTemplate.checkForDependencyCycles and
ActionTemplateService.checkForDependencyCycles.

All three sites contain the identical recursive closure

  checkCycle(actionId) -- with shared mutable visited / recursionStack sets

differing only in the adjacency they follow (dependsOn in the first two,
nextActions in the third), so the closure is embedded once, parametrised
by the adjacency function g. checkCycleGo returns the boolean result of
the closure together with the updated visited set; recursionStack is
passed by value because the closure removes on exit exactly what it added
on entry, leaving the caller's stack unchanged. -/

/-! Embedding of the checkCycle(actionId) closure body: mark the node
visited and grey, then run the for-loop over its adjacency list. The
early-exiting for-loop (return true propagates, a grey neighbour throws)
is modelled as a fold whose error and true states absorb; checkDepsGo
below is the recursion-friendly rendering of the same loop and
checkCycleGo_succ proves the two agree. -/
/-- One iteration of the for-loop body of checkCycle, abstracted over the
recursive call: propagate errors and a true result, otherwise handle one
depId exactly as the source does. -/
def depStep
    (recurse : List String → List String → String →
      Except GraphError (Bool × List String))
    (actionId : String) (recStack : List String)
    (acc : Except GraphError (Bool × List String)) (depId : String) :
    Except GraphError (Bool × List String) :=
  match acc with
  | .error e => .error e
  | .ok (true, v) => .ok (true, v)
  | .ok (false, v) =>
    if depId ∈ v then
      if depId ∈ recStack then .error (.cycle actionId depId)
      else .ok (false, v)
    else
      match recurse v recStack depId with
      | .error e => .error e
      | .ok (true, v2) => .ok (true, v2)
      | .ok (false, v2) =>
        if depId ∈ recStack then .error (.cycle actionId depId)
        else .ok (false, v2)

def checkCycleGo (g : String → List String) :
    Nat → List String → List String → String →
    Except GraphError (Bool × List String)
  | 0, _, _, _ => .error .fuelExhausted
  | fuel + 1, visited, recStack, actionId =>
    if actionId ∈ visited then
      -- visited.has(actionId): the surrounding if is skipped, return false
      .ok (false, visited)
    else
      -- visited.add(actionId); recursionStack.add(actionId); loop over deps
      (g actionId).foldl
        (depStep (checkCycleGo g fuel) actionId (actionId :: recStack))
        (.ok (false, actionId :: visited))

/-- The for-loop over the dependency list inside checkCycle, written as
plain recursion on the list: for each depId, recurse when unvisited
(propagating a true result), and report a cycle when depId sits on the
recursion stack. -/
def checkDepsGo (g : String → List String) (fuel : Nat) (actionId : String) :
    List String → List String → List String →
    Except GraphError (Bool × List String)
  | [], visited, _ =>
    -- loop done: recursionStack.delete(actionId); return false
    .ok (false, visited)
  | depId :: rest, visited, recStack =>
    if depId ∈ visited then
      if depId ∈ recStack then .error (.cycle actionId depId)
      else checkDepsGo g fuel actionId rest visited recStack
    else
      match checkCycleGo g fuel visited recStack depId with
      | .error e => .error e
      | .ok (true, v) => .ok (true, v)
      | .ok (false, v) =>
        if depId ∈ recStack then .error (.cycle actionId depId)
        else checkDepsGo g fuel actionId rest v recStack

/-- Embedding of the top-level loop
for (const action of actions) if (!visited.has(action.id)) checkCycle(action.id):
the boolean result is ignored, thrown errors propagate. -/
def checkCyclesLoop (g : String → List String) (fuel : Nat) :
    List TaskAction → List String → Except GraphError (List String)
  | [], visited => .ok visited
  | action :: rest, visited =>
    if action.id ∈ visited then
      checkCyclesLoop g fuel rest visited
    else
      match checkCycleGo g fuel visited [] action.id with
      | .error e => .error e
      | .ok (_, v) => checkCyclesLoop g fuel rest v

/-- Fuel bound for the dependsOn DFS: the recursion depth is bounded by the
number of distinct ids occurring anywhere (as an action id or inside a
dependsOn list), which this quantity dominates. -/
def depsFuel (actions : List TaskAction) : Nat :=
  actions.length + (actions.map (fun a => (getDeps a).length)).sum + 1

/-- Fuel bound for the nextActions DFS. -/
def nextsFuel (actions : List TaskAction) : Nat :=
  actions.length + (actions.map (fun a => (getNexts a).length)).sum + 1

/-- TaskService.checkForDependencyCycles: run the DFS over the dependsOn
adjacency from every not-yet-visited action. -/
def checkForDependencyCycles (actions : List TaskAction) : Except GraphError Unit :=
  match checkCyclesLoop (mapDeps actions) (depsFuel actions) actions [] with
  | .error e => .error e
  | .ok _ => .ok ()

/-- First entry of a list of ids that is missing from actionIds
(the inner for-loop of the referential-integrity checks). -/
def firstMissing (actionIds : List String) : List String → Option String
  | [] => none
  | d :: rest => if d ∈ actionIds then firstMissing actionIds rest else some d

/-- The referential-integrity loop of TaskService.validateActionDependencies:
for each action, every dependsOn entry must be an existing action id. -/
def tsCheckRefsLoop (actionIds : List String) :
    List TaskAction → Except GraphError Unit
  | [] => .ok ()
  | action :: rest =>
    match firstMissing actionIds (getDeps action) with
    | some depId => .error (.missingDep action.id depId)
    | none => tsCheckRefsLoop actionIds rest

/-- TaskService.validateActionDependencies: referential-integrity check over
dependsOn, then cycle check over dependsOn. -/
def validateActionDependencies (actions : List TaskAction) : Except GraphError Unit :=
  match tsCheckRefsLoop (actionIdsOf actions) actions with
  | .error e => .error e
  | .ok _ => checkForDependencyCycles actions

/-! ### Availability evaluator (TaskService.getAvailableActions and the
blockedActions computation of TaskService.getTaskWorkflowStats). -/

/-- The dependency-satisfied test used throughout TaskService:
const dependency = taskData.actions.find(a => a.id === depId);
return dependency && dependency.completed
(find scans in order, so the FIRST action with the id is consulted;
a missing dependency yields false). -/
def depCompleted (actions : List TaskAction) (depId : String) : Bool :=
  match actions.find? (fun a => a.id = depId) with
  | some dependency => dependency.completed
  | none => false

/-- The filter predicate of getAvailableActions: not completed, and either
no dependencies or every dependency completed. -/
def availableFilter (actions : List TaskAction) (action : TaskAction) : Bool :=
  if action.completed then false
  else if (getDeps action).isEmpty then true
  else (getDeps action).all (fun depId => depCompleted actions depId)

/-- TaskService.getAvailableActions restricted to its pure core. -/
def getAvailableActions (actions : List TaskAction) : List TaskAction :=
  actions.filter (fun action => availableFilter actions action)

/-- The filter predicate of the blockedActions computation in
getTaskWorkflowStats: not completed, has dependencies, and not all of them
completed. -/
def blockedFilter (actions : List TaskAction) (action : TaskAction) : Bool :=
  if action.completed then false
  else if (getDeps action).isEmpty then false
  else ! (getDeps action).all (fun depId => depCompleted actions depId)

/-- The blockedActions list of TaskService.getTaskWorkflowStats. -/
def blockedActions (actions : List TaskAction) : List TaskAction :=
  actions.filter (fun action => blockedFilter actions action)

/-- Specification class: the action is completed. -/
def CompletedClass (a : TaskAction) : Prop :=
  a.completed = true

/-- Specification class Available: not completed and every dependency is a
completed action of the collection (vacuously true for empty dependsOn). -/
def AvailableClass (actions : List TaskAction) (a : TaskAction) : Prop :=
  a.completed = false ∧
    ∀ d ∈ getDeps a, ∃ b, b ∈ actions ∧ b.id = d ∧ b.completed = true

/-- Specification class Blocked: not completed and some dependency is not a
completed action of the collection. -/
def BlockedClass (actions : List TaskAction) (a : TaskAction) : Prop :=
  a.completed = false ∧
    ∃ d ∈ getDeps a, ¬ ∃ b, b ∈ actions ∧ b.id = d ∧ b.completed = true

/-! ### Completion state machine (TaskService.completeTaskAction and
TaskService.uncompleteTaskAction, pure cores).

The Firestore fetch/store around the collection and the notification
fan-out are plumbing; the embedded core receives the action collection of
the task, the target action id, the optional data argument, and the
ambient Date.now() / auth.currentUser?.uid values as parameters. -/

/-- Errors thrown by the completion state machine. -/
inductive TaskError where
  | actionNotFound
  | unsatisfiedDependencies
  | dependentsCompleted
deriving Repr, DecidableEq

/-- Mirror of the optional data argument of completeTaskAction
(only data.attachments is consulted). -/
structure CompletionInput where
  attachments : Option (List String) := none
deriving Repr, DecidableEq

/-- The per-action update of completeTaskAction: mark completed, stamp
completedAt / completedBy, and for the info-with-attachments and document
action types rebuild the data payload as the code does. -/
def completeActionUpdate (action : TaskAction) (data : Option CompletionInput)
    (now : Nat) (uid : Option String) : TaskAction :=
  let updatedAction : TaskAction :=
    { action with completed := true, completedAt := some now, completedBy := uid }
  if action.type = "info" ∧ action.hasAttachments = true ∧
      (data.bind (fun dd => dd.attachments)).isSome then
    { updatedAction with
      data := some { steps := (updatedAction.data.getD {}).steps,
                     fileURLs := data.bind (fun dd => dd.attachments) } }
  else if action.type = "document" ∧ data.isSome then
    { updatedAction with
      data := some { steps := some ((updatedAction.data.getD {}).steps.getD []),
                     fileURLs := some ((updatedAction.data.getD {}).fileURLs.getD []) } }
  else updatedAction

/-- Pure core of TaskService.completeTaskAction: find the target action,
fail if absent, fail if it has dependencies and not all of them are
completed, otherwise return the collection with the target updated. -/
def completeTaskActionCore (actions : List TaskAction) (actionId : String)
    (data : Option CompletionInput) (now : Nat) (uid : Option String) :
    Except TaskError (List TaskAction) :=
  match actions.find? (fun action => action.id = actionId) with
  | none => .error .actionNotFound
  | some actionToComplete =>
    if (getDeps actionToComplete).length > 0 then
      if (getDeps actionToComplete).all (fun depId => depCompleted actions depId) then
        .ok (actions.map (fun action =>
          if action.id = actionId then completeActionUpdate action data now uid
          else action))
      else
        .error .unsatisfiedDependencies
    else
      .ok (actions.map (fun action =>
        if action.id = actionId then completeActionUpdate action data now uid
        else action))

/-- The dependentActions computation at the end of completeTaskAction:
updatedActions.filter(action =>
  action.dependsOn?.includes(actionId) && !action.completed).
This set drives the "new actions available" notification. -/
def dependentActionsAfter (updatedActions : List TaskAction) (actionId : String) :
    List TaskAction :=
  updatedActions.filter (fun action =>
    decide (actionId ∈ getDeps action) && ! action.completed)

/-- The per-action update of uncompleteTaskAction: clear the completion
state, and reset the attachments list of an info action that carries
attachments. -/
def uncompleteActionUpdate (action : TaskAction) : TaskAction :=
  { action with
    completed := false
    completedAt := none
    completedBy := none
    attachments :=
      if action.type = "info" ∧ action.hasAttachments = true then some []
      else action.attachments }

/-- Pure core of TaskService.uncompleteTaskAction: find the target action,
fail if absent, fail if some completed action lists the target in its
dependsOn, otherwise return the collection with the target reverted. -/
def uncompleteTaskActionCore (actions : List TaskAction) (actionId : String) :
    Except TaskError (List TaskAction) :=
  match actions.find? (fun action => action.id = actionId) with
  | none => .error .actionNotFound
  | some _ =>
    let dependentActions := actions.filter (fun action =>
      decide (actionId ∈ getDeps action) && action.completed)
    if dependentActions.length > 0 then
      .error .dependentsCompleted
    else
      .ok (actions.map (fun action =>
        if action.id = actionId then uncompleteActionUpdate action else action))

/-! ### Level organizer (organizeActions in CreateActionTemplate.tsx and the
identical actionLevels useMemo body in WorkflowVisualizer.tsx). -/

/-- The initial actions: no dependsOn field or an empty dependsOn list. -/
def initialActions (actions : List TaskAction) : List TaskAction :=
  actions.filter (fun action => (getDeps action).isEmpty)

/-- The ids of all actions placed in the levels so far (levels.flat()). -/
def processedIds (levels : List (List TaskAction)) : List String :=
  levels.flatten.map (fun action => action.id)

/-- The nextLevel filter: not yet placed, and every dependsOn entry already
placed (an absent dependsOn field passes via the ?? true default). -/
def nextLevelFilter (actions : List TaskAction) (processed : List String) :
    List TaskAction :=
  actions.filter (fun action =>
    if action.id ∈ processed then false
    else
      match action.dependsOn with
      | some ds => ds.all (fun depId => decide (depId ∈ processed))
      | none => true)

/-- The while (currentLevel.length > 0) loop of organizeActions; the fuel
stands in for the implicit termination argument (each iteration places at
least one new id, so actions.length + 1 rounds always suffice). When the
fuel runs out the levels collected so far are returned, which provably
never happens from the chosen initial fuel. -/
def organizeLoop (actions : List TaskAction) :
    Nat → List (List TaskAction) → List TaskAction → List (List TaskAction)
  | 0, levels, _ => levels
  | fuel + 1, levels, currentLevel =>
    if currentLevel.isEmpty then levels
    else
      let newLevels := levels ++ [currentLevel]
      organizeLoop actions fuel newLevels
        (nextLevelFilter actions (processedIds newLevels))

/-- organizeActions: start from the dependency-free actions and repeatedly
append the next fully-unblocked wave. -/
def organizeActions (actions : List TaskAction) : List (List TaskAction) :=
  organizeLoop actions (actions.length + 1) [] (initialActions actions)

/-- actionLevels of WorkflowVisualizer.tsx: the same computation (the
component body is a verbatim copy of organizeActions). -/
def actionLevels (actions : List TaskAction) : List (List TaskAction) :=
  organizeActions actions

/-! ### ActionTemplateService.validateActionDependencies. -/

/-- The referential-integrity loop of
ActionTemplateService.validateActionDependencies: for each action, every
dependsOn entry and every nextActions entry must be an existing id. -/
def atsCheckRefsLoop (actionIds : List String) :
    List TaskAction → Except GraphError Unit
  | [] => .ok ()
  | action :: rest =>
    match firstMissing actionIds (getDeps action) with
    | some depId => .error (.missingDep action.id depId)
    | none =>
      match firstMissing actionIds (getNexts action) with
      | some nextId => .error (.missingNext action.id nextId)
      | none => atsCheckRefsLoop actionIds rest

/-- ActionTemplateService.checkForDependencyCycles: the same DFS closure,
but the loop inside checkCycle iterates over action.nextActions, so the
traversed adjacency is the nextActions relation, not dependsOn. -/
def atsCheckForDependencyCycles (actions : List TaskAction) :
    Except GraphError Unit :=
  match checkCyclesLoop (mapNexts actions) (nextsFuel actions) actions [] with
  | .error e => .error e
  | .ok _ => .ok ()

/-- ActionTemplateService.validateActionDependencies: referential integrity
for dependsOn and nextActions, then the cycle check (over nextActions). -/
def atsValidateActionDependencies (actions : List TaskAction) :
    Except GraphError Unit :=
  match atsCheckRefsLoop (actionIdsOf actions) actions with
  | .error e => .error e
  | .ok _ => atsCheckForDependencyCycles actions

/-! ### Dependency editing (handleUpdateDependencies in
CreateActionTemplate.tsx and handleSave in DependencyEditor.tsx). -/

/-- The hypothetical collection with actionId's dependsOn replaced: the map
built by handleUpdateDependencies ({ ...action, dependsOn }) and also the
collection the React state update commits on success. -/
def setActionDeps (actions : List TaskAction) (actionId : String)
    (dependsOn : List String) : List TaskAction :=
  actions.map (fun action =>
    if action.id = actionId then { action with dependsOn := some dependsOn }
    else action)

/-- handleUpdateDependencies: build the hypothetical collection, run
checkForDependencyCycles on it (the CreateActionTemplate copy of the
TaskService DFS over dependsOn), and commit only when no error is thrown. -/
def handleUpdateDependencies (actions : List TaskAction) (actionId : String)
    (dependsOn : List String) : Except GraphError (List TaskAction) :=
  let newActions := setActionDeps actions actionId dependsOn
  match checkForDependencyCycles newActions with
  | .error e => .error e
  | .ok _ => .ok newActions

/-- The tempDeps map of DependencyEditor.handleSave: currentActionId maps to
the selected dependencies, every other action to its dependsOn (or []),
and tempDeps.get(id) || [] yields [] for unknown ids. -/
def tempDeps (actions : List TaskAction) (currentActionId : String)
    (selectedDeps : List String) (actionId : String) : List String :=
  match actionMapGet actions actionId with
  | some action =>
    if action.id = currentActionId then selectedDeps else getDeps action
  | none => []

/-! The checkCycle closure of DependencyEditor.handleSave is a different
variant: it tests the recursion stack BEFORE the visited set, returns true
instead of throwing, and is started from currentActionId only. -/

/-! Embedding of the handleSave checkCycle closure (recursion stack tested
before the visited set, boolean result instead of a thrown error). The
for-loop is again a fold with absorbing none / true states; hsCheckDeps is
its recursion-friendly rendering. -/
/-- One iteration of the for-loop body of the handleSave closure,
abstracted over the recursive call. -/
def hsStep
    (recurse : List String → List String → String → Option (Bool × List String))
    (recStack : List String)
    (acc : Option (Bool × List String)) (depId : String) :
    Option (Bool × List String) :=
  match acc with
  | none => none
  | some (true, v) => some (true, v)
  | some (false, v) => recurse v recStack depId

def hsCheckCycle (g : String → List String) :
    Nat → List String → List String → String → Option (Bool × List String)
  | 0, _, _, _ => none
  | fuel + 1, visited, recStack, actionId =>
    if actionId ∈ recStack then
      some (true, visited)
    else if actionId ∈ visited then
      some (false, visited)
    else
      (g actionId).foldl
        (hsStep (hsCheckCycle g fuel) (actionId :: recStack))
        (some (false, actionId :: visited))

/-- The for-loop over dependencies inside the handleSave closure. -/
def hsCheckDeps (g : String → List String) (fuel : Nat) :
    List String → List String → List String → Option (Bool × List String)
  | [], visited, _ =>
    -- recursionStack.delete(actionId); return false
    some (false, visited)
  | depId :: rest, visited, recStack =>
    match hsCheckCycle g fuel visited recStack depId with
    | none => none
    | some (true, v) => some (true, v)
    | some (false, v) => hsCheckDeps g fuel rest v recStack

/-- Fuel bound for the handleSave DFS (currentActionId is inserted
explicitly because it is the root even when it is no action's id). -/
def hsFuel (actions : List TaskAction) : Nat :=
  actions.length + (actions.map (fun a => (getDeps a).length)).sum + 2

/-- DependencyEditor.handleSave: reject when checkCycle(currentActionId)
over the tempDeps graph finds a cycle, otherwise commit the new
dependency list through onUpdateDependencies. -/
def handleSave (actions : List TaskAction) (currentActionId : String)
    (selectedDeps : List String) : Except Unit (List TaskAction) :=
  match hsCheckCycle (tempDeps actions currentActionId selectedDeps)
      (hsFuel actions) [] [] currentActionId with
  | none => .error ()
  | some (true, _) => .error ()
  | some (false, _) => .ok (setActionDeps actions currentActionId selectedDeps)

/-- A dependency-edit operation through either UI path. -/
inductive DepEdit where
  | viaPage (actionId : String) (dependsOn : List String)
  | viaEditor (actionId : String) (dependsOn : List String)
deriving Repr, DecidableEq

/-- Apply one edit: a successful edit commits the new collection, a failed
one leaves the collection unchanged (the React state is only written
inside the success branch). -/
def applyEdit (actions : List TaskAction) : DepEdit → List TaskAction
  | .viaPage actionId dependsOn =>
    match handleUpdateDependencies actions actionId dependsOn with
    | .ok newActions => newActions
    | .error _ => actions
  | .viaEditor actionId dependsOn =>
    match handleSave actions actionId dependsOn with
    | .ok newActions => newActions
    | .error _ => actions

/-- Apply a sequence of dependency edits. -/
def applyEdits (actions : List TaskAction) : List DepEdit → List TaskAction
  | [] => actions
  | op :: rest => applyEdits (applyEdit actions op) rest

/-- Decidable equality for Except results (used to evaluate the embedded
functions on concrete inputs). -/
instance {e a : Type} [DecidableEq e] [DecidableEq a] : DecidableEq (Except e a) :=
  fun x y =>
  match x, y with
  | .error u, .error w =>
    if h : u = w then .isTrue (by rw [h])
    else .isFalse (by intro hc; injection hc; contradiction)
  | .error _, .ok _ => .isFalse (by intro hc; cases hc)
  | .ok _, .error _ => .isFalse (by intro hc; cases hc)
  | .ok u, .ok w =>
    if h : u = w then .isTrue (by rw [h])
    else .isFalse (by intro hc; injection hc; contradiction)

/-! ### Proof-level notions for the DFS correctness arguments. -/

/-- The grey stack of the DFS is a path: each entry is listed in the
adjacency of the entry below it (the head is the most recently pushed
node). -/
def stackPath (g : String → List String) : List String → Prop
  | [] => True
  | [_] => True
  | a :: b :: t => a ∈ g b ∧ stackPath g (b :: t)

/-- A ranking certificate for the finished part of a DFS state: every
visited node that is not grey has all its successors visited, not grey,
and of strictly smaller rank. The existence of such a certificate with an
empty grey stack forces acyclicity on the visited nodes. -/
def GoodRank (g : String → List String) (visited recStack : List String)
    (r : String → Nat) : Prop :=
  ∀ x ∈ visited, x ∉ recStack → ∀ y ∈ g x, y ∈ visited ∧ y ∉ recStack ∧ r y < r x

/-! ### Concrete action collections used to instantiate the theorems. -/

/-- Isolated action C (no dependencies, disconnected from the cycle). -/
def exC : TaskAction := { id := "C" }

/-- Isolated action D. -/
def exD : TaskAction := { id := "D" }

/-- Action A depending on B (half of a two-cycle). -/
def exA : TaskAction := { id := "A", dependsOn := some ["B"] }

/-- Action B depending on A (the other half of the two-cycle). -/
def exB : TaskAction := { id := "B", dependsOn := some ["A"] }

/-- A collection whose first actions in iteration order (C, D) are
disconnected from the A/B dependsOn cycle listed after them. -/
def exDisconnectedCycle : List TaskAction := [exC, exD, exA, exB]

/-- Just the two-action dependsOn cycle. -/
def cycPair : List TaskAction := [exA, exB]

/-- Scenario 1 of the specification: A; B and C depending on A; D depending
on B and C. -/
def scA : TaskAction := { id := "A" }

/-- Action B of scenario 1. -/
def scB : TaskAction := { id := "B", dependsOn := some ["A"] }

/-- Action C of scenario 1. -/
def scC : TaskAction := { id := "C", dependsOn := some ["A"] }

/-- Action D of scenario 1. -/
def scD : TaskAction := { id := "D", dependsOn := some ["B", "C"] }

/-- The scenario-1 collection. -/
def scenario1 : List TaskAction := [scA, scB, scC, scD]

/-- Completion witness input: X with no dependencies. -/
def exX : TaskAction := { id := "X" }

/-- Independent incomplete action Y. -/
def exY : TaskAction := { id := "Y" }

/-- Action depending on both X and Y. -/
def exAXY : TaskAction := { id := "A", dependsOn := some ["X", "Y"] }

/-- The collection X, A(X,Y), Y with nothing completed. -/
def ex9 : List TaskAction := [exX, exAXY, exY]

/-- X after being completed at time 5 by user u. -/
def exXdone : TaskAction :=
  { exX with completed := true, completedAt := some 5, completedBy := some "u" }

/-- The collection after completing X. -/
def ex9after : List TaskAction := [exXdone, exAXY, exY]

/-- An action with a dangling dependency reference. -/
def exDangling : TaskAction := { id := "E", dependsOn := some ["ghost"] }

/-- Collection containing a dangling reference. -/
def ex10 : List TaskAction := [scA, exDangling]


/-- Scenario-1 action A completed. -/
def scAdone : TaskAction :=
  { scA with completed := true, completedAt := some 0, completedBy := some "u" }

/-- Scenario-1 action B completed. -/
def scBdone : TaskAction :=
  { scB with completed := true, completedAt := some 1, completedBy := some "u" }

/-- Scenario-1 action C completed. -/
def scCdone : TaskAction :=
  { scC with completed := true, completedAt := some 2, completedBy := some "u" }

/-- Scenario-1 action D completed. -/
def scDdone : TaskAction :=
  { scD with completed := true, completedAt := some 3, completedBy := some "u" }

/-- Scenario 5 of the specification: everything completed. -/
def scenario5 : List TaskAction := [scAdone, scBdone, scCdone, scDdone]

/-- Scenario 5 after uncompleting D (D reverts to its initial record). -/
def scenario5after : List TaskAction := [scAdone, scBdone, scCdone, scD]

/-! ## Theorems -/

/-- Two actions of a collection with duplicate-free ids and the same id are
the same action. -/
theorem id_inj_of_nodup {actions : List TaskAction}
    (hnd : (actionIdsOf actions).Nodup) {a b : TaskAction}
    (ha : a ∈ actions) (hb : b ∈ actions) (hid : a.id = b.id) : a = b :=
  List.inj_on_of_nodup_map (by simpa [actionIdsOf] using hnd) ha hb hid

/-- depCompleted resolves to true exactly when the referenced action exists
and is completed (ids assumed duplicate-free, as the data model requires). -/
theorem depCompleted_iff {actions : List TaskAction}
    (hnd : (actionIdsOf actions).Nodup) (d : String) :
    depCompleted actions d = true ↔
      ∃ b, b ∈ actions ∧ b.id = d ∧ b.completed = true := by
  unfold depCompleted
  cases hfind : actions.find? (fun a => a.id = d) with
  | none =>
    constructor
    · intro h
      exact absurd h (by simp)
    · rintro ⟨b, hb, hid, -⟩
      have := List.find?_eq_none.mp hfind b hb
      simp [hid] at this
  | some c =>
    have hc : c.id = d := by simpa using List.find?_some hfind
    have hcm : c ∈ actions := List.mem_of_find?_eq_some hfind
    constructor
    · intro h
      exact ⟨c, hcm, hc, h⟩
    · rintro ⟨b, hb, hid, hcomp⟩
      have hcb : c = b := id_inj_of_nodup hnd hcm hb (by rw [hc, hid])
      rw [hcb]
      exact hcomp

/-- The getAvailableActions filter accepts exactly the Available class. -/
theorem availableFilter_iff {actions : List TaskAction}
    (hnd : (actionIdsOf actions).Nodup) (a : TaskAction) :
    availableFilter actions a = true ↔ AvailableClass actions a := by
  unfold availableFilter AvailableClass
  by_cases hc : a.completed = true
  · simp [hc]
  · have hc' : a.completed = false := by simpa using hc
    rw [if_neg hc]
    by_cases he : (getDeps a).isEmpty = true
    · have hnil : getDeps a = [] := by simpa [List.isEmpty_iff] using he
      rw [if_pos he]
      simp [hc', hnil]
    · rw [if_neg he, List.all_eq_true]
      simp only [hc', eq_self_iff_true, true_and]
      constructor
      · intro h d hd
        exact (depCompleted_iff hnd d).mp (h d hd)
      · intro h d hd
        exact (depCompleted_iff hnd d).mpr (h d hd)

/-- The blockedActions filter accepts exactly the Blocked class. -/
theorem blockedFilter_iff {actions : List TaskAction}
    (hnd : (actionIdsOf actions).Nodup) (a : TaskAction) :
    blockedFilter actions a = true ↔ BlockedClass actions a := by
  unfold blockedFilter BlockedClass
  by_cases hc : a.completed = true
  · simp [hc]
  · have hc' : a.completed = false := by simpa using hc
    rw [if_neg hc]
    by_cases he : (getDeps a).isEmpty = true
    · have hnil : getDeps a = [] := by simpa [List.isEmpty_iff] using he
      rw [if_pos he]
      simp [hc', hnil]
    · rw [if_neg he]
      simp only [hc', eq_self_iff_true, true_and, Bool.not_eq_true',
        Bool.eq_false_iff, Ne, List.all_eq_true, not_forall]
      constructor
      · rintro ⟨d, hd, hfalse⟩
        refine ⟨d, hd, fun hex => hfalse ?_⟩
        exact (depCompleted_iff hnd d).mpr hex
      · rintro ⟨d, hd, hnotex⟩
        refine ⟨d, hd, fun htrue => hnotex ?_⟩
        exact (depCompleted_iff hnd d).mp htrue

/-- Claim C3: with duplicate-free ids, every action of the collection falls
in exactly one of the classes Completed, Available (not completed, all
dependencies completed — including the empty-dependsOn case) and Blocked
(not completed, some dependency not completed); getAvailableActions
returns exactly the Available class and the blockedActions computation of
getTaskWorkflowStats returns exactly the Blocked class. -/
theorem availability_classification (actions : List TaskAction)
    (a : TaskAction) (hnd : (actionIdsOf actions).Nodup) (ha : a ∈ actions) :
    (CompletedClass a ∨ AvailableClass actions a ∨ BlockedClass actions a) ∧
    ¬ (CompletedClass a ∧ AvailableClass actions a) ∧
    ¬ (CompletedClass a ∧ BlockedClass actions a) ∧
    ¬ (AvailableClass actions a ∧ BlockedClass actions a) ∧
    (a ∈ getAvailableActions actions ↔ AvailableClass actions a) ∧
    (a ∈ blockedActions actions ↔ BlockedClass actions a) := by
  refine ⟨?_, ?_, ?_, ?_, ?_, ?_⟩
  · by_cases hc : a.completed = true
    · exact Or.inl hc
    · have hc' : a.completed = false := by simpa using hc
      by_cases h : ∀ d ∈ getDeps a, ∃ b, b ∈ actions ∧ b.id = d ∧ b.completed = true
      · exact Or.inr (Or.inl ⟨hc', h⟩)
      · push_neg at h
        obtain ⟨d, hd, hne⟩ := h
        refine Or.inr (Or.inr ⟨hc', d, hd, ?_⟩)
        rintro ⟨b, hb, hid, hcomp⟩
        exact hne b hb hid hcomp
  · rintro ⟨h1, h2⟩
    exact absurd (h1.symm.trans h2.1) (by decide)
  · rintro ⟨h1, h2⟩
    exact absurd (h1.symm.trans h2.1) (by decide)
  · rintro ⟨⟨-, h1⟩, ⟨-, d, hd, hne⟩⟩
    exact hne (h1 d hd)
  · rw [getAvailableActions, List.mem_filter]
    constructor
    · rintro ⟨-, h⟩
      exact (availableFilter_iff hnd a).mp h
    · intro h
      exact ⟨ha, (availableFilter_iff hnd a).mpr h⟩
  · rw [blockedActions, List.mem_filter]
    constructor
    · rintro ⟨-, h⟩
      exact (blockedFilter_iff hnd a).mp h
    · intro h
      exact ⟨ha, (blockedFilter_iff hnd a).mpr h⟩

/-- Witness for C3: in scenario 1 with nothing completed, D is Blocked and
is reported in blockedActions. -/
theorem availability_classification_witness :
    ((actionIdsOf scenario1).Nodup ∧ scD ∈ scenario1) ∧
    (scD ∈ blockedActions scenario1 ↔ BlockedClass scenario1 scD) :=
  ⟨⟨by decide, by decide⟩,
    (availability_classification scenario1 scD (by decide) (by decide)).2.2.2.2.2⟩

/-- Claim C10: an uncompleted action with a dangling dependsOn entry is
never available and always blocked — the evaluator treats the missing
dependency as an incomplete one. -/
theorem dangling_dependency_blocks (actions : List TaskAction)
    (a : TaskAction) (d : String) (ha : a ∈ actions) (hc : a.completed = false)
    (hd : d ∈ getDeps a) (hmiss : ∀ b ∈ actions, b.id ≠ d) :
    a ∉ getAvailableActions actions ∧ a ∈ blockedActions actions := by
  have hdep : depCompleted actions d = false := by
    unfold depCompleted
    cases hfind : actions.find? (fun b => b.id = d) with
    | none => rfl
    | some c =>
      have hcm : c ∈ actions := List.mem_of_find?_eq_some hfind
      have hcd : c.id = d := by simpa using List.find?_some hfind
      exact absurd hcd (hmiss c hcm)
  have hne : ¬ (getDeps a).isEmpty = true := by
    cases hgd : getDeps a with
    | nil => rw [hgd] at hd; cases hd
    | cons x xs => simp
  have hall : (getDeps a).all (fun depId => depCompleted actions depId) = false := by
    rw [Bool.eq_false_iff]
    intro hto
    rw [List.all_eq_true] at hto
    have := hto d hd
    rw [hdep] at this
    exact absurd this (by decide)
  have hcts : ¬ (a.completed = true) := by simp [hc]
  constructor
  · rw [getAvailableActions, List.mem_filter]
    rintro ⟨-, hfil⟩
    rw [availableFilter, if_neg hcts, if_neg hne, hall] at hfil
    exact absurd hfil (by decide)
  · rw [blockedActions, List.mem_filter]
    refine ⟨ha, ?_⟩
    rw [blockedFilter, if_neg hcts, if_neg hne, hall]
    rfl

/-- Witness for C10: action E depends on the nonexistent id ghost, so E is
not available and is blocked. -/
theorem dangling_dependency_blocks_witness :
    (exDangling ∈ ex10 ∧ exDangling.completed = false ∧
      "ghost" ∈ getDeps exDangling ∧ ∀ b ∈ ex10, b.id ≠ "ghost") ∧
    (exDangling ∉ getAvailableActions ex10 ∧ exDangling ∈ blockedActions ex10) :=
  ⟨⟨by decide, by decide, by decide, by decide⟩,
    dangling_dependency_blocks ex10 exDangling "ghost"
      (by decide) (by decide) (by decide) (by decide)⟩

/-- The fields completeActionUpdate sets regardless of the action type. -/
theorem completeActionUpdate_fields (a : TaskAction) (data : Option CompletionInput)
    (now : Nat) (uid : Option String) :
    (completeActionUpdate a data now uid).completed = true ∧
    (completeActionUpdate a data now uid).completedAt = some now ∧
    (completeActionUpdate a data now uid).completedBy = uid ∧
    (completeActionUpdate a data now uid).id = a.id := by
  unfold completeActionUpdate
  split
  · simp
  · split <;> simp

/-- A successful completeTaskActionCore returns the mapped collection. -/
theorem completeCore_ok_eq {actions : List TaskAction} {actionId : String}
    {data : Option CompletionInput} {now : Nat} {uid : Option String}
    {res : List TaskAction}
    (h : completeTaskActionCore actions actionId data now uid = .ok res) :
    res = actions.map (fun action =>
      if action.id = actionId then completeActionUpdate action data now uid
      else action) := by
  unfold completeTaskActionCore at h
  split at h
  · cases h
  · split at h
    · split at h
      · exact ((Except.ok.injEq _ _).mp h).symm
      · cases h
    · exact ((Except.ok.injEq _ _).mp h).symm

/-- Claim C4: completeTaskAction fails with the not-found error when the
target id is absent, fails with the unsatisfied-dependencies error when
some dependsOn entry of the target is not a completed action of the
collection, and on success the target action is marked completed with
completedAt and completedBy stamped from the completion metadata (the
failure paths return an error and no updated collection). -/
theorem complete_action_contract (actions : List TaskAction) (actionId : String)
    (data : Option CompletionInput) (now : Nat) (uid : Option String)
    (hnd : (actionIdsOf actions).Nodup) :
    ((∀ a ∈ actions, a.id ≠ actionId) →
      completeTaskActionCore actions actionId data now uid =
        .error .actionNotFound) ∧
    (∀ a, a ∈ actions → a.id = actionId →
      (∃ d ∈ getDeps a, ¬ ∃ b, b ∈ actions ∧ b.id = d ∧ b.completed = true) →
      completeTaskActionCore actions actionId data now uid =
        .error .unsatisfiedDependencies) ∧
    (∀ res, completeTaskActionCore actions actionId data now uid = .ok res →
      ∀ b ∈ res, b.id = actionId →
        b.completed = true ∧ b.completedAt = some now ∧ b.completedBy = uid) := by
  refine ⟨?_, ?_, ?_⟩
  · intro h
    have hfind : actions.find? (fun action => action.id = actionId) = none :=
      List.find?_eq_none.mpr (fun x hx => by simp [h x hx])
    simp only [completeTaskActionCore, hfind]
  · rintro a ha haid ⟨d, hd, hnotex⟩
    cases hfind : actions.find? (fun action => action.id = actionId) with
    | none =>
      have := List.find?_eq_none.mp hfind a ha
      simp [haid] at this
    | some c =>
      have hcm : c ∈ actions := List.mem_of_find?_eq_some hfind
      have hcid : c.id = actionId := by simpa using List.find?_some hfind
      have hca : c = a := id_inj_of_nodup hnd hcm ha (by rw [hcid, haid])
      subst hca
      have hlen : (getDeps c).length > 0 :=
        List.length_pos.mpr (List.ne_nil_of_mem hd)
      have hall : ¬ ((getDeps c).all (fun depId => depCompleted actions depId)) = true := by
        intro hto
        rw [List.all_eq_true] at hto
        exact hnotex ((depCompleted_iff hnd d).mp (hto d hd))
      simp only [completeTaskActionCore, hfind]
      rw [if_pos hlen, if_neg hall]
  · intro res hres b hb hbid
    rw [completeCore_ok_eq hres] at hb
    obtain ⟨a, ha, hfa⟩ := List.mem_map.mp hb
    by_cases haid : a.id = actionId
    · rw [if_pos haid] at hfa
      rw [← hfa]
      exact ⟨(completeActionUpdate_fields a data now uid).1,
        (completeActionUpdate_fields a data now uid).2.1,
        (completeActionUpdate_fields a data now uid).2.2.1⟩
    · rw [if_neg haid] at hfa
      rw [← hfa] at hbid
      exact absurd hbid haid

/-- Witness for C4: in scenario 1 with nothing completed, completing B
fails because its dependency A is not completed. -/
theorem complete_action_contract_witness :
    ((actionIdsOf scenario1).Nodup ∧ scB ∈ scenario1 ∧ scB.id = "B" ∧
      "A" ∈ getDeps scB ∧
      ¬ ∃ b, b ∈ scenario1 ∧ b.id = "A" ∧ b.completed = true) ∧
    completeTaskActionCore scenario1 "B" none 7 (some "u") =
      .error .unsatisfiedDependencies :=
  ⟨⟨by decide, by decide, by decide, by decide, by decide⟩,
    (complete_action_contract scenario1 "B" none 7 (some "u") (by decide)).2.1
      scB (by decide) (by decide) ⟨"A", by decide, by decide⟩⟩

/-- A successful uncompleteTaskActionCore returns the mapped collection. -/
theorem uncompleteCore_ok_eq {actions : List TaskAction} {actionId : String}
    {res : List TaskAction}
    (h : uncompleteTaskActionCore actions actionId = .ok res) :
    res = actions.map (fun action =>
      if action.id = actionId then uncompleteActionUpdate action else action) := by
  unfold uncompleteTaskActionCore at h
  split at h
  · cases h
  · dsimp only at h
    split at h
    · cases h
    · exact ((Except.ok.injEq _ _).mp h).symm

/-- Claim C5: uncompleteTaskAction fails exactly when the target action is
absent or some action listing it in dependsOn is itself completed; on
success the target's completion state is cleared (with the attachment
list reset exactly for info actions carrying attachments), its identity
and dependencies are untouched, and every other action is returned
unchanged in place. -/
theorem uncomplete_action_contract (actions : List TaskAction) (actionId : String) :
    ((∃ e, uncompleteTaskActionCore actions actionId = .error e) ↔
      ((∀ a ∈ actions, a.id ≠ actionId) ∨
        ∃ a, a ∈ actions ∧ actionId ∈ getDeps a ∧ a.completed = true)) ∧
    (∀ res, uncompleteTaskActionCore actions actionId = .ok res →
      res.length = actions.length ∧
      ∀ (i : Nat) (a : TaskAction), actions[i]? = some a →
        (a.id ≠ actionId → res[i]? = some a) ∧
        (a.id = actionId → ∃ b, res[i]? = some b ∧
          b.completed = false ∧ b.completedAt = none ∧ b.completedBy = none ∧
          b.attachments = (if a.type = "info" ∧ a.hasAttachments = true
            then some [] else a.attachments) ∧
          b.id = a.id ∧ b.dependsOn = a.dependsOn ∧ b.type = a.type)) := by
  constructor
  · constructor
    · rintro ⟨e, he⟩
      unfold uncompleteTaskActionCore at he
      split at he
      · next hfind =>
        exact Or.inl (fun a ha => by simpa using List.find?_eq_none.mp hfind a ha)
      · next c hfind =>
        dsimp only at he
        split at he
        · next hlen =>
          obtain ⟨x, hx⟩ := List.exists_mem_of_ne_nil
            (actions.filter (fun action =>
              decide (actionId ∈ getDeps action) && action.completed))
            (by intro hnil; rw [hnil] at hlen; simp at hlen)
          have hx' := List.mem_filter.mp hx
          have hand := hx'.2
          rw [Bool.and_eq_true] at hand
          exact Or.inr ⟨x, hx'.1, of_decide_eq_true hand.1, hand.2⟩
        · cases he
    · intro h
      cases hfind : actions.find? (fun action => action.id = actionId) with
      | none =>
        refine ⟨.actionNotFound, ?_⟩
        simp only [uncompleteTaskActionCore, hfind]
      | some c =>
        have hcm : c ∈ actions := List.mem_of_find?_eq_some hfind
        have hcid : c.id = actionId := by simpa using List.find?_some hfind
        rcases h with h | ⟨a, ha, hdep, hcomp⟩
        · exact absurd hcid (h c hcm)
        · refine ⟨.dependentsCompleted, ?_⟩
          have hmem : a ∈ actions.filter (fun action =>
              decide (actionId ∈ getDeps action) && action.completed) :=
            List.mem_filter.mpr ⟨ha, by simp [hdep, hcomp]⟩
          have hlen : (actions.filter (fun action =>
              decide (actionId ∈ getDeps action) && action.completed)).length > 0 :=
            List.length_pos.mpr (List.ne_nil_of_mem hmem)
          simp only [uncompleteTaskActionCore, hfind]
          rw [if_pos hlen]
  · intro res hres
    have heq := uncompleteCore_ok_eq hres
    subst heq
    refine ⟨List.length_map _ _, ?_⟩
    intro i a hia
    have hmap : (actions.map (fun action =>
        if action.id = actionId then uncompleteActionUpdate action else action))[i]? =
        some (if a.id = actionId then uncompleteActionUpdate a else a) := by
      rw [List.getElem?_map, hia]
      rfl
    constructor
    · intro hne
      rw [hmap, if_neg hne]
    · intro heqid
      refine ⟨uncompleteActionUpdate a, by rw [hmap, if_pos heqid], ?_⟩
      unfold uncompleteActionUpdate
      exact ⟨rfl, rfl, rfl, rfl, rfl, rfl, rfl⟩

/-- Witness for C5: in scenario 5 (everything completed) uncompleting D
succeeds — D's completion state is cleared, B and C untouched — and
position 3 carries the reverted D. -/
theorem uncomplete_action_contract_witness :
    (uncompleteTaskActionCore scenario5 "D" = .ok scenario5after ∧
      scenario5[3]? = some scDdone ∧ scDdone.id = "D") ∧
    (∃ b, scenario5after[3]? = some b ∧
      b.completed = false ∧ b.completedAt = none ∧ b.completedBy = none ∧
      b.attachments = (if scDdone.type = "info" ∧ scDdone.hasAttachments = true
        then some [] else scDdone.attachments) ∧
      b.id = scDdone.id ∧ b.dependsOn = scDdone.dependsOn ∧
      b.type = scDdone.type) :=
  ⟨⟨rfl, by decide, by decide⟩,
    ((uncomplete_action_contract scenario5 "D").2 scenario5after rfl).2
      3 scDdone (by decide) |>.2 (by decide)⟩

/-- Claim C8 (code evaluation): the template collection A↔B forms a
dependsOn cycle, yet ActionTemplateService.validateActionDependencies
accepts it silently, because its cycle check traverses the nextActions
lists (empty here) instead of the dependsOn lists. -/
theorem ats_misses_dependsOn_cycle :
    atsValidateActionDependencies cycPair = .ok () ∧ HasDependsCycle cycPair := by
  constructor
  · rfl
  · have h1 : DependsEdge cycPair "A" "B" := ⟨exA, by decide, rfl, by decide⟩
    have h2 : DependsEdge cycPair "B" "A" := ⟨exB, by decide, rfl, by decide⟩
    exact ⟨"A", Relation.TransGen.tail (Relation.TransGen.single h1) h2⟩

/-- Claim C9 (code evaluation): after successfully completing X in the
collection X, A(depends on X and Y), Y, the dependentActions set that
drives the "newly available" notification contains A even though A's
other dependency Y is still incomplete, so A is not Available (the
availability filter rejects it). -/
theorem complete_reports_blocked_dependent :
    completeTaskActionCore ex9 "X" none 5 (some "u") = .ok ex9after ∧
    dependentActionsAfter ex9after "X" = [exAXY] ∧
    exAXY.completed = false ∧ "Y" ∈ getDeps exAXY ∧
    depCompleted ex9after "Y" = false ∧
    availableFilter ex9after exAXY = false :=
  ⟨rfl, by decide, by decide, by decide, by decide, by decide⟩

/-! ### Level organizer: structure of the computed levels. -/

/-- The initial (dependency-free) actions are exactly the nextLevelFilter
of an empty processed set. -/
theorem initialActions_eq (actions : List TaskAction) :
    initialActions actions = nextLevelFilter actions [] := by
  unfold initialActions nextLevelFilter
  refine List.filter_congr (fun a _ => ?_)
  cases hdep : a.dependsOn with
  | none => simp [getDeps, hdep]
  | some ds =>
    cases ds with
    | nil => simp [getDeps, hdep]
    | cons d rest => simp [getDeps, hdep]

/-- organizeLoop only ever appends to the accumulated levels. -/
theorem organizeLoop_prefix (actions : List TaskAction) :
    ∀ (fuel : Nat) (levels : List (List TaskAction)) (current : List TaskAction),
      ∃ rest, organizeLoop actions fuel levels current = levels ++ rest := by
  intro fuel
  induction fuel with
  | zero => intro levels current; exact ⟨[], by simp [organizeLoop]⟩
  | succ fuel ih =>
    intro levels current
    by_cases hemp : current.isEmpty
    · exact ⟨[], by simp [organizeLoop, hemp]⟩
    · obtain ⟨rest, hrest⟩ := ih (levels ++ [current])
        (nextLevelFilter actions (processedIds (levels ++ [current])))
      refine ⟨[current] ++ rest, ?_⟩
      rw [organizeLoop, if_neg (by simpa using hemp), hrest, List.append_assoc]

/-- Every level the loop emits is the nextLevelFilter of the levels before
it (the shape invariant of the Kahn-style layering). -/
theorem organizeLoop_shape (actions : List TaskAction) :
    ∀ (fuel : Nat) (levels : List (List TaskAction)) (current : List TaskAction),
      (∀ k l, levels[k]? = some l →
        l = nextLevelFilter actions (processedIds (levels.take k))) →
      current = nextLevelFilter actions (processedIds levels) →
      ∀ k l, (organizeLoop actions fuel levels current)[k]? = some l →
        l = nextLevelFilter actions
          (processedIds ((organizeLoop actions fuel levels current).take k)) := by
  intro fuel
  induction fuel with
  | zero =>
    intro levels current hinv _ k l hk
    simpa [organizeLoop] using hinv k l (by simpa [organizeLoop] using hk)
  | succ fuel ih =>
    intro levels current hinv hcur
    by_cases hemp : current.isEmpty
    · intro k l hk
      simpa [organizeLoop, hemp] using hinv k l (by simpa [organizeLoop, hemp] using hk)
    · have hstep : organizeLoop actions (fuel + 1) levels current =
          organizeLoop actions fuel (levels ++ [current])
            (nextLevelFilter actions (processedIds (levels ++ [current]))) := by
        rw [organizeLoop, if_neg (by simpa using hemp)]
      rw [hstep]
      refine ih (levels ++ [current]) _ ?_ rfl
      intro k l hk
      rcases Nat.lt_trichotomy k levels.length with hlt | heq | hgt
      · rw [List.getElem?_append_left hlt] at hk
        rw [List.take_append_of_le_length (Nat.le_of_lt hlt)]
        exact hinv k l hk
      · subst heq
        have hk' : l = current := by
          simp at hk
          exact hk.symm
        subst hk'
        rw [List.take_append_of_le_length (Nat.le_refl _), List.take_length]
        exact hcur
      · exfalso
        have : (levels ++ [current]).length ≤ k := by
          simp
          omega
        rw [List.getElem?_eq_none this] at hk
        cases hk

/-- Membership in a nextLevelFilter level: the action belongs to the
collection, is not yet placed, and all its dependencies are placed. -/
theorem mem_nextLevelFilter_iff {actions : List TaskAction}
    {processed : List String} {a : TaskAction} :
    a ∈ nextLevelFilter actions processed ↔
      a ∈ actions ∧ a.id ∉ processed ∧ ∀ d ∈ getDeps a, d ∈ processed := by
  unfold nextLevelFilter
  rw [List.mem_filter]
  constructor
  · rintro ⟨ha, hp⟩
    by_cases hid : a.id ∈ processed
    · rw [if_pos hid] at hp
      cases hp
    · rw [if_neg hid] at hp
      refine ⟨ha, hid, ?_⟩
      cases hdep : a.dependsOn with
      | none =>
        intro d hd
        rw [getDeps, hdep] at hd
        cases hd
      | some ds =>
        rw [hdep] at hp
        intro d hd
        rw [getDeps, hdep] at hd
        have := (List.all_eq_true.mp hp) d hd
        exact of_decide_eq_true this
  · rintro ⟨ha, hid, hdeps⟩
    refine ⟨ha, ?_⟩
    rw [if_neg hid]
    cases hdep : a.dependsOn with
    | none => rfl
    | some ds =>
      rw [List.all_eq_true]
      intro d hd
      refine decide_eq_true (hdeps d ?_)
      rw [getDeps, hdep]
      exact hd

/-- The ids of actions of a level of a prefix are processed ids of any
longer prefix. -/
theorem mem_processedIds_of_level {R : List (List TaskAction)} {k : Nat}
    {l : List TaskAction} {a : TaskAction}
    (hk : R[k]? = some l) (ha : a ∈ l) {n : Nat} (hkn : k < n) :
    a.id ∈ processedIds (R.take n) := by
  have htake : (R.take n)[k]? = some l := by
    rw [List.getElem?_take, if_pos hkn]
    exact hk
  have hlmem : l ∈ R.take n := List.getElem?_mem htake
  unfold processedIds
  rw [List.mem_map]
  exact ⟨a, List.mem_flatten.mpr ⟨l, hlmem, ha⟩, rfl⟩

/-- Taking one more level only enlarges the processed id set. -/
theorem processedIds_take_mono (R : List (List TaskAction)) (k : Nat) :
    processedIds (R.take k) ⊆ processedIds (R.take (k + 1)) := by
  have hsub : R.take k ⊆ R.take (k + 1) := by
    have hk : R.take k = (R.take (k + 1)).take k := by
      rw [List.take_take]
      congr 1
      omega
    rw [hk]
    exact List.take_subset _ _
  intro x hx
  unfold processedIds at hx ⊢
  rw [List.mem_map] at hx ⊢
  obtain ⟨b, hb, hxb⟩ := hx
  rw [List.mem_flatten] at hb
  obtain ⟨lb, hlb, hblb⟩ := hb
  exact ⟨b, List.mem_flatten.mpr ⟨lb, hsub hlb, hblb⟩, hxb⟩

/-- Claim C6: the levels computed by organizeActions (and the identical
actionLevels of WorkflowVisualizer) satisfy the layering contract: the
first level is exactly the actions with empty or absent dependsOn; every
action of a level is not placed earlier and has all its dependencies
placed in strictly earlier levels; no action of level k+1 could have been
placed a level earlier; and each level preserves the input order (it is a
sublist of the input, so the output is deterministic in the input order). -/
theorem level_organizer_correct (actions : List TaskAction) :
    ((organizeActions actions).head? =
      if (initialActions actions).isEmpty then none
      else some (initialActions actions)) ∧
    (∀ k l, (organizeActions actions)[k]? = some l →
      l.Sublist actions ∧
      ∀ a ∈ l, a.id ∉ processedIds ((organizeActions actions).take k) ∧
        ∀ d ∈ getDeps a, d ∈ processedIds ((organizeActions actions).take k)) ∧
    (∀ k l a, (organizeActions actions)[k+1]? = some l → a ∈ l →
      ¬ ∀ d ∈ getDeps a, d ∈ processedIds ((organizeActions actions).take k)) := by
  have hshape : ∀ k l, (organizeActions actions)[k]? = some l →
      l = nextLevelFilter actions (processedIds ((organizeActions actions).take k)) := by
    have h := organizeLoop_shape actions (actions.length + 1) [] (initialActions actions)
      (by intro k l hk; simp at hk) (by rw [initialActions_eq]; rfl)
    intro k l hk
    exact h k l hk
  refine ⟨?_, ?_, ?_⟩
  · unfold organizeActions organizeLoop
    by_cases hemp : (initialActions actions).isEmpty
    · rw [if_pos hemp, if_pos hemp]
      rfl
    · rw [if_neg hemp, if_neg hemp]
      obtain ⟨rest, hrest⟩ := organizeLoop_prefix actions actions.length
        ([] ++ [initialActions actions])
        (nextLevelFilter actions (processedIds ([] ++ [initialActions actions])))
      dsimp only
      rw [hrest]
      rfl
  · intro k l hk
    have hl := hshape k l hk
    constructor
    · rw [hl]
      exact List.filter_sublist actions
    · intro a ha
      rw [hl] at ha
      have := mem_nextLevelFilter_iff.mp ha
      exact ⟨this.2.1, this.2.2⟩
  · intro k l a hk ha hall
    have hklen : k + 1 < (organizeActions actions).length := by
      by_contra hge
      rw [List.getElem?_eq_none (Nat.le_of_not_lt hge)] at hk
      cases hk
    have hk2 : k < (organizeActions actions).length := Nat.lt_of_succ_lt hklen
    have hlk : (organizeActions actions)[k]? =
        some ((organizeActions actions).get ⟨k, hk2⟩) :=
      List.getElem?_eq_getElem hk2
    have hmemk := mem_nextLevelFilter_iff.mp (hshape (k + 1) l hk ▸ ha)
    have hamem : a ∈ nextLevelFilter actions
        (processedIds ((organizeActions actions).take k)) :=
      mem_nextLevelFilter_iff.mpr ⟨hmemk.1, by
        intro hin
        exact hmemk.2.1 (processedIds_take_mono _ k hin), hall⟩
    rw [← hshape k _ hlk] at hamem
    exact hmemk.2.1 (mem_processedIds_of_level hlk hamem (Nat.lt_succ_self k))

/-- Witness for C6: on scenario 1 the second level is [B, C]; it preserves
input order, and B's dependency A lies in the level before while D's
dependencies do not — so D could not be placed at level 1. -/
theorem level_organizer_correct_witness :
    ((organizeActions scenario1)[1]? = some [scB, scC] ∧ scB ∈ [scB, scC] ∧
      (organizeActions scenario1)[2]? = some [scD] ∧ scD ∈ [scD]) ∧
    ([scB, scC].Sublist scenario1 ∧
      (∀ d ∈ getDeps scB, d ∈ processedIds ((organizeActions scenario1).take 1)) ∧
      ¬ ∀ d ∈ getDeps scD, d ∈ processedIds ((organizeActions scenario1).take 1)) := by
  have h2 := (level_organizer_correct scenario1).2.1 1 [scB, scC] rfl
  have h3 := (level_organizer_correct scenario1).2.2 1 [scD] scD rfl (by decide)
  exact ⟨⟨rfl, by decide, rfl, by decide⟩,
    h2.1, (h2.2 scB (by decide)).2, h3⟩

/-- Claim C7 counterexample: on the cyclic pair the level organizer simply
returns the empty level list — no error value exists in its return type —
silently omitting both actions, so the union of the returned levels is
not the whole collection. -/
theorem organize_drops_cyclic_actions :
    organizeActions cycPair = [] ∧ exA ∈ cycPair ∧
    exA ∉ (organizeActions cycPair).flatten :=
  ⟨rfl, by decide, by decide⟩

/-- With sufficient fuel the organize loop runs to quiescence: afterwards no
further action is placeable. -/
theorem organizeLoop_exit (actions : List TaskAction) :
    ∀ (fuel : Nat) (levels : List (List TaskAction)) (current : List TaskAction),
      current = nextLevelFilter actions (processedIds levels) →
      ((actionIdsOf actions).toFinset \ (processedIds levels).toFinset).card < fuel →
      nextLevelFilter actions
        (processedIds (organizeLoop actions fuel levels current)) = [] := by
  intro fuel
  induction fuel with
  | zero =>
    intro levels current _ hcard
    exact absurd hcard (Nat.not_lt_zero _)
  | succ fuel ih =>
    intro levels current hcur hcard
    by_cases hemp : current.isEmpty
    · rw [organizeLoop, if_pos hemp]
      rw [hcur] at hemp
      exact List.isEmpty_iff.mp hemp
    · rw [organizeLoop, if_neg hemp]
      dsimp only
      refine ih (levels ++ [current]) _ rfl ?_
      obtain ⟨a, hamem⟩ := List.exists_mem_of_ne_nil current
        (by intro hnil; rw [hnil] at hemp; exact hemp rfl)
      have ha := mem_nextLevelFilter_iff.mp (hcur ▸ hamem)
      have hproc : processedIds (levels ++ [current]) =
          processedIds levels ++ current.map (fun action => action.id) := by
        unfold processedIds
        rw [List.flatten_append, List.map_append]
        simp
      have hssub : ((actionIdsOf actions).toFinset \
            (processedIds (levels ++ [current])).toFinset) ⊂
          ((actionIdsOf actions).toFinset \ (processedIds levels).toFinset) := by
        constructor
        · intro x hx
          rw [Finset.mem_sdiff] at hx ⊢
          refine ⟨hx.1, fun hmem => hx.2 ?_⟩
          rw [List.mem_toFinset] at hmem ⊢
          rw [hproc]
          exact List.mem_append_left _ hmem
        · intro hsub
          have haid : a.id ∈ (actionIdsOf actions).toFinset \
              (processedIds levels).toFinset := by
            rw [Finset.mem_sdiff, List.mem_toFinset, List.mem_toFinset]
            refine ⟨?_, ha.2.1⟩
            unfold actionIdsOf
            rw [List.mem_map]
            exact ⟨a, ha.1, rfl⟩
          have := hsub haid
          rw [Finset.mem_sdiff, List.mem_toFinset] at this
          refine this.2 ?_
          rw [List.mem_toFinset, hproc]
          refine List.mem_append_right _ ?_
          rw [List.mem_map]
          exact ⟨a, hamem, rfl⟩
      exact Nat.lt_of_lt_of_le (Finset.card_lt_card hssub) (Nat.lt_succ_iff.mp hcard)

/-- Claim C7 (amended): on an acyclic, referentially intact collection the
level organizer places every action: the union of the returned levels
covers the whole collection. -/
theorem organize_complete_on_acyclic (actions : List TaskAction)
    (hintact : ∀ a ∈ actions, ∀ d ∈ getDeps a, d ∈ actionIdsOf actions)
    (hacyc : AcyclicDeps actions) :
    ∀ a ∈ actions, a.id ∈ processedIds (organizeActions actions) := by
  classical
  set P := processedIds (organizeActions actions) with hP
  have hexit : nextLevelFilter actions P = [] := by
    rw [hP]
    unfold organizeActions
    refine organizeLoop_exit actions (actions.length + 1) [] (initialActions actions)
      (by rw [initialActions_eq]; rfl) ?_
    calc ((actionIdsOf actions).toFinset \ (processedIds []).toFinset).card
        ≤ (actionIdsOf actions).toFinset.card := Finset.card_le_card (Finset.sdiff_subset)
      _ ≤ (actionIdsOf actions).length := (actionIdsOf actions).toFinset_card_le
      _ < actions.length + 1 := by rw [actionIdsOf, List.length_map]; omega
  have hkey : ∀ a ∈ actions, a.id ∉ P → ∃ d ∈ getDeps a, d ∉ P := by
    intro a ha hid
    have hnot : a ∉ nextLevelFilter actions P := by
      rw [hexit]
      exact List.not_mem_nil a
    by_contra hno
    push_neg at hno
    exact hnot (mem_nextLevelFilter_iff.mpr ⟨ha, hid, hno⟩)
  intro a₀ ha₀
  by_contra hout
  -- the ids that were never placed form a nonempty finite set in which
  -- every element has a dependsOn-successor, which forces a cycle
  set T : Finset String :=
    (actionIdsOf actions).toFinset.filter (fun i => i ∉ P) with hT
  have ht₀ : a₀.id ∈ T := by
    rw [hT, Finset.mem_filter, List.mem_toFinset]
    exact ⟨by rw [actionIdsOf, List.mem_map]; exact ⟨a₀, ha₀, rfl⟩, hout⟩
  have hstep : ∀ t ∈ T, ∃ u, u ∈ T ∧ DependsEdge actions t u := by
    intro t ht
    rw [hT, Finset.mem_filter, List.mem_toFinset, actionIdsOf, List.mem_map] at ht
    obtain ⟨⟨b, hb, hbid⟩, htP⟩ := ht
    obtain ⟨d, hd, hdP⟩ := hkey b hb (by rw [hbid]; exact htP)
    refine ⟨d, ?_, ⟨b, hb, hbid, hd⟩⟩
    rw [hT, Finset.mem_filter, List.mem_toFinset]
    exact ⟨hintact b hb d hd, hdP⟩
  let f : String → String := fun t => if h : t ∈ T then (hstep t h).choose else t
  have hf : ∀ t ∈ T, f t ∈ T ∧ DependsEdge actions t (f t) := by
    intro t ht
    have hft : f t = (hstep t ht).choose := dif_pos ht
    rw [hft]
    exact ⟨(hstep t ht).choose_spec.1, (hstep t ht).choose_spec.2⟩
  have hiter_mem : ∀ n, f^[n] a₀.id ∈ T := by
    intro n
    induction n with
    | zero => exact ht₀
    | succ n ihn =>
      rw [Function.iterate_succ_apply']
      exact (hf _ ihn).1
  have hiter_path : ∀ n, Relation.TransGen (DependsEdge actions)
      (f^[0] a₀.id) (f^[n + 1] a₀.id) := by
    intro n
    induction n with
    | zero =>
      rw [Function.iterate_succ_apply']
      exact Relation.TransGen.single (hf _ (hiter_mem 0)).2
    | succ n ihn =>
      rw [Function.iterate_succ_apply' f (n + 1)]
      exact Relation.TransGen.tail ihn (hf _ (hiter_mem (n + 1))).2
  -- pigeonhole over the iterates
  obtain ⟨i, hi, j, hj, hij, hfij⟩ :=
    Finset.exists_ne_map_eq_of_card_lt_of_maps_to
      (s := Finset.range (T.card + 1)) (t := T)
      (by rw [Finset.card_range]; omega)
      (fun n _ => hiter_mem n)
  -- build a cycle from the repeated iterate
  have hcycle : ∀ (i j : Nat), i < j → f^[i] a₀.id = f^[j] a₀.id →
      HasDependsCycle actions := by
    intro i j hlt heq
    obtain ⟨m, hm⟩ : ∃ m, j = m + 1 + i := ⟨j - i - 1, by omega⟩
    refine ⟨f^[i] a₀.id, ?_⟩
    have hpath : Relation.TransGen (DependsEdge actions)
        (f^[0] (f^[i] a₀.id)) (f^[m + 1] (f^[i] a₀.id)) := by
      have hgen : ∀ n, Relation.TransGen (DependsEdge actions)
          (f^[0] (f^[i] a₀.id)) (f^[n + 1] (f^[i] a₀.id)) := by
        intro n
        induction n with
        | zero =>
          rw [Function.iterate_succ_apply']
          exact Relation.TransGen.single
            (hf _ (by rw [Function.iterate_zero_apply]; exact hiter_mem i)).2
        | succ n ihn =>
          rw [Function.iterate_succ_apply' f (n + 1)]
          refine Relation.TransGen.tail ihn (hf _ ?_).2
          rw [← Function.iterate_add_apply]
          exact hiter_mem (n + 1 + i)
      exact hgen m
    rw [Function.iterate_zero_apply, ← Function.iterate_add_apply, ← hm, ← heq] at hpath
    exact hpath
  rcases Nat.lt_or_ge i j with hlt | hge
  · exact hacyc (hcycle i j hlt hfij)
  · rcases Nat.lt_or_ge j i with hlt' | hge'
    · exact hacyc (hcycle j i hlt' hfij.symm)
    · exact hij (Nat.le_antisymm hge' hge)

/-! ### DFS unfolding: the absorbing folds agree with the recursive
renderings of the for-loops. -/

/-- The dependency fold of checkCycleGo equals the recursive loop
checkDepsGo. -/
theorem foldl_depStep_eq (g : String → List String) (fuel : Nat)
    (actionId : String) (recStack : List String) :
    ∀ (deps : List String) (v : List String),
      deps.foldl (depStep (checkCycleGo g fuel) actionId recStack)
        (.ok (false, v)) =
      checkDepsGo g fuel actionId deps v recStack := by
  have habs_err : ∀ (l : List String) (e : GraphError),
      l.foldl (depStep (checkCycleGo g fuel) actionId recStack) (.error e) =
        .error e := by
    intro l
    induction l with
    | nil => intro e; rfl
    | cons d rest ih => intro e; rw [List.foldl_cons]; exact ih e
  have habs_true : ∀ (l : List String) (v : List String),
      l.foldl (depStep (checkCycleGo g fuel) actionId recStack)
        (.ok (true, v)) = .ok (true, v) := by
    intro l
    induction l with
    | nil => intro v; rfl
    | cons d rest ih => intro v; rw [List.foldl_cons]; exact ih v
  intro deps
  induction deps with
  | nil => intro v; rfl
  | cons depId rest ih =>
    intro v
    rw [List.foldl_cons, checkDepsGo]
    have hstep : depStep (checkCycleGo g fuel) actionId recStack
        (.ok (false, v)) depId =
        (if depId ∈ v then
          if depId ∈ recStack then .error (.cycle actionId depId)
          else .ok (false, v)
        else
          match checkCycleGo g fuel v recStack depId with
          | .error e => .error e
          | .ok (true, v2) => .ok (true, v2)
          | .ok (false, v2) =>
            if depId ∈ recStack then .error (.cycle actionId depId)
            else .ok (false, v2)) := rfl
    rw [hstep]
    by_cases hv : depId ∈ v
    · by_cases hrs : depId ∈ recStack
      · simp only [if_pos hv, if_pos hrs]
        exact habs_err rest _
      · simp only [if_pos hv, if_neg hrs]
        exact ih v
    · simp only [if_neg hv]
      cases hcc : checkCycleGo g fuel v recStack depId with
      | error e =>
        simp only [hcc]
        exact habs_err rest e
      | ok p =>
        obtain ⟨b, v2⟩ := p
        cases b with
        | true =>
          simp only [hcc]
          exact habs_true rest v2
        | false =>
          simp only [hcc]
          by_cases hrs : depId ∈ recStack
          · simp only [if_pos hrs]
            exact habs_err rest _
          · simp only [if_neg hrs]
            exact ih v2

/-- One-step unfolding of checkCycleGo through checkDepsGo. -/
theorem checkCycleGo_succ (g : String → List String) (fuel : Nat)
    (visited recStack : List String) (actionId : String) :
    checkCycleGo g (fuel + 1) visited recStack actionId =
      if actionId ∈ visited then .ok (false, visited)
      else checkDepsGo g fuel actionId (g actionId) (actionId :: visited)
        (actionId :: recStack) := by
  by_cases hm : actionId ∈ visited
  · rw [checkCycleGo, if_pos hm, if_pos hm]
  · rw [checkCycleGo, if_neg hm, if_neg hm]
    exact foldl_depStep_eq g fuel actionId (actionId :: recStack) (g actionId)
      (actionId :: visited)

/-- The dependency fold of hsCheckCycle equals the recursive loop
hsCheckDeps. -/
theorem foldl_hsStep_eq (g : String → List String) (fuel : Nat)
    (recStack : List String) :
    ∀ (deps : List String) (v : List String),
      deps.foldl (hsStep (hsCheckCycle g fuel) recStack) (some (false, v)) =
      hsCheckDeps g fuel deps v recStack := by
  have habs_none : ∀ (l : List String),
      l.foldl (hsStep (hsCheckCycle g fuel) recStack) none = none := by
    intro l
    induction l with
    | nil => rfl
    | cons d rest ih => rw [List.foldl_cons]; exact ih
  have habs_true : ∀ (l : List String) (v : List String),
      l.foldl (hsStep (hsCheckCycle g fuel) recStack) (some (true, v)) =
        some (true, v) := by
    intro l
    induction l with
    | nil => intro v; rfl
    | cons d rest ih => intro v; rw [List.foldl_cons]; exact ih v
  intro deps
  induction deps with
  | nil => intro v; rfl
  | cons depId rest ih =>
    intro v
    rw [List.foldl_cons, hsCheckDeps]
    have hstep : hsStep (hsCheckCycle g fuel) recStack (some (false, v)) depId =
        hsCheckCycle g fuel v recStack depId := rfl
    rw [hstep]
    cases hcc : hsCheckCycle g fuel v recStack depId with
    | none => exact habs_none rest
    | some p =>
      obtain ⟨b, v2⟩ := p
      cases b with
      | true => exact habs_true rest v2
      | false => exact ih v2

/-- One-step unfolding of hsCheckCycle through hsCheckDeps. -/
theorem hsCheckCycle_succ (g : String → List String) (fuel : Nat)
    (visited recStack : List String) (actionId : String) :
    hsCheckCycle g (fuel + 1) visited recStack actionId =
      if actionId ∈ recStack then some (true, visited)
      else if actionId ∈ visited then some (false, visited)
      else hsCheckDeps g fuel (g actionId) (actionId :: visited)
        (actionId :: recStack) := by
  by_cases hrs : actionId ∈ recStack
  · rw [hsCheckCycle, if_pos hrs, if_pos hrs]
  · rw [hsCheckCycle, if_neg hrs, if_neg hrs]
    by_cases hm : actionId ∈ visited
    · rw [if_pos hm, if_pos hm]
    · rw [if_neg hm, if_neg hm]
      exact foldl_hsStep_eq g fuel (actionId :: recStack) (g actionId)
        (actionId :: visited)

/-! ### DFS basic invariants: the visited set only grows, and sufficient
fuel rules out the fuelExhausted error. -/

/-- checkDepsGo only grows the visited set (given that checkCycleGo at the
same fuel does). -/
theorem checkDepsGo_mono (g : String → List String) (fuel : Nat) (actionId : String)
    (ihC : ∀ v rs n b v', checkCycleGo g fuel v rs n = .ok (b, v') → v ⊆ v') :
    ∀ deps v rs b v', checkDepsGo g fuel actionId deps v rs = .ok (b, v') → v ⊆ v' := by
  intro deps
  induction deps with
  | nil =>
    intro v rs b v' h
    rw [checkDepsGo] at h
    cases h
    exact fun x hx => hx
  | cons depId rest ih =>
    intro v rs b v' h
    rw [checkDepsGo] at h
    by_cases hv : depId ∈ v
    · by_cases hrs : depId ∈ rs
      · simp only [if_pos hv, if_pos hrs] at h
        cases h
      · simp only [if_pos hv, if_neg hrs] at h
        exact ih v rs b v' h
    · simp only [if_neg hv] at h
      cases hcc : checkCycleGo g fuel v rs depId with
      | error e =>
        rw [hcc] at h
        cases h
      | ok p =>
        obtain ⟨b2, v2⟩ := p
        rw [hcc] at h
        have hv2 := ihC v rs depId b2 v2 hcc
        cases b2 with
        | true =>
          simp only at h
          cases h
          exact hv2
        | false =>
          simp only at h
          by_cases hrs : depId ∈ rs
          · rw [if_pos hrs] at h
            cases h
          · rw [if_neg hrs] at h
            exact fun x hx => ih v2 rs b v' h (hv2 hx)

/-- checkCycleGo only grows the visited set. -/
theorem checkCycleGo_mono (g : String → List String) :
    ∀ fuel v rs n b v', checkCycleGo g fuel v rs n = .ok (b, v') → v ⊆ v' := by
  intro fuel
  induction fuel with
  | zero =>
    intro v rs n b v' h
    rw [checkCycleGo] at h
    cases h
  | succ fuel ih =>
    intro v rs n b v' h
    rw [checkCycleGo_succ] at h
    by_cases hm : n ∈ v
    · rw [if_pos hm] at h
      cases h
      exact fun x hx => hx
    · rw [if_neg hm] at h
      have := checkDepsGo_mono g fuel n ih (g n) (n :: v) (n :: rs) b v' h
      exact fun x hx => this (List.mem_cons_of_mem _ hx)

/-- The visited sets grow only within the id universe tracked by a Finset;
with fuel exceeding the unvisited part of that universe, checkDepsGo never
runs out of fuel. -/
theorem checkDepsGo_nf (g : String → List String) (Ufin : Finset String)
    (hg : ∀ x y, y ∈ g x → y ∈ Ufin) (fuel : Nat) (actionId : String)
    (ihC : ∀ v rs n, n ∈ Ufin → (Ufin \ v.toFinset).card < fuel →
      checkCycleGo g fuel v rs n ≠ .error .fuelExhausted) :
    ∀ deps v rs, (∀ d ∈ deps, d ∈ Ufin) → (Ufin \ v.toFinset).card < fuel →
      checkDepsGo g fuel actionId deps v rs ≠ .error .fuelExhausted := by
  intro deps
  induction deps with
  | nil =>
    intro v rs _ _ hcon
    rw [checkDepsGo] at hcon
    cases hcon
  | cons depId rest ih =>
    intro v rs hdeps hcard hcon
    rw [checkDepsGo] at hcon
    by_cases hv : depId ∈ v
    · by_cases hrs : depId ∈ rs
      · simp only [if_pos hv, if_pos hrs] at hcon
        exact absurd hcon (by simp)
      · simp only [if_pos hv, if_neg hrs] at hcon
        exact ih v rs (fun d hd => hdeps d (List.mem_cons_of_mem _ hd)) hcard hcon
    · simp only [if_neg hv] at hcon
      cases hcc : checkCycleGo g fuel v rs depId with
      | error e =>
        rw [hcc] at hcon
        have he : e = .fuelExhausted := by
          injection hcon
        rw [he] at hcc
        exact ihC v rs depId (hdeps depId (List.mem_cons_self _ _)) hcard hcc
      | ok p =>
        obtain ⟨b2, v2⟩ := p
        rw [hcc] at hcon
        cases b2 with
        | true =>
          simp only at hcon
          exact absurd hcon (by simp)
        | false =>
          simp only at hcon
          by_cases hrs : depId ∈ rs
          · rw [if_pos hrs] at hcon
            cases hcon
          · rw [if_neg hrs] at hcon
            have hsub : v.toFinset ⊆ v2.toFinset := by
              intro x hx
              rw [List.mem_toFinset] at hx ⊢
              exact checkCycleGo_mono g fuel v rs depId false v2 hcc hx
            have hcard2 : (Ufin \ v2.toFinset).card < fuel :=
              Nat.lt_of_le_of_lt
                (Finset.card_le_card (Finset.sdiff_subset_sdiff (le_refl _) hsub))
                hcard
            exact ih v2 rs (fun d hd => hdeps d (List.mem_cons_of_mem _ hd))
              hcard2 hcon

/-- With fuel exceeding the unvisited part of the id universe, checkCycleGo
never runs out of fuel. -/
theorem checkCycleGo_nf (g : String → List String) (Ufin : Finset String)
    (hg : ∀ x y, y ∈ g x → y ∈ Ufin) :
    ∀ fuel v rs n, n ∈ Ufin → (Ufin \ v.toFinset).card < fuel →
      checkCycleGo g fuel v rs n ≠ .error .fuelExhausted := by
  intro fuel
  induction fuel with
  | zero =>
    intro v rs n _ hcard
    exact absurd hcard (Nat.not_lt_zero _)
  | succ fuel ih =>
    intro v rs n hn hcard hcon
    rw [checkCycleGo_succ] at hcon
    by_cases hm : n ∈ v
    · rw [if_pos hm] at hcon
      cases hcon
    · rw [if_neg hm] at hcon
      have hmemdiff : n ∈ Ufin \ v.toFinset := by
        rw [Finset.mem_sdiff, List.mem_toFinset]
        exact ⟨hn, hm⟩
      have hcard2 : (Ufin \ (n :: v).toFinset).card < fuel := by
        rw [List.toFinset_cons, Finset.sdiff_insert, Finset.card_erase_of_mem hmemdiff]
        have h1 : (Ufin \ v.toFinset).card ≤ fuel := Nat.lt_succ_iff.mp hcard
        have h2 : 0 < (Ufin \ v.toFinset).card := Finset.card_pos.mpr ⟨n, hmemdiff⟩
        omega
      exact checkDepsGo_nf g Ufin hg fuel n ih (g n) (n :: v) (n :: rs)
        (fun d hd => hg n d hd) hcard2 hcon

/-! ### DFS soundness: a cycle error is only raised in the presence of an
actual cycle of the traversed adjacency. -/

/-- Every member of the grey stack reaches the top of the stack through
edges of the adjacency. -/
theorem stackPath_mem {g : String → List String} :
    ∀ {t : List String} {x y : String}, stackPath g (x :: t) → y ∈ x :: t →
      Relation.ReflTransGen (GEdge g) y x := by
  intro t
  induction t with
  | nil =>
    intro x y _ hy
    rcases List.mem_cons.mp hy with h | h
    · rw [h]
    · cases h
  | cons b t ih =>
    intro x y hpath hy
    rcases List.mem_cons.mp hy with h | h
    · rw [h]
    · have hbx : GEdge g b x := hpath.1
      exact Relation.ReflTransGen.tail (ih hpath.2 h) hbx

/-- Soundness of the dependency loop: an error other than fuel exhaustion
means the adjacency has a cycle (the grey stack provides the return
path). -/
theorem checkDepsGo_sound (g : String → List String) (fuel : Nat)
    (actionId : String) (rs' : List String)
    (ihC : ∀ v rs n e, stackPath g (n :: rs) →
      checkCycleGo g fuel v rs n = .error e →
      e = .fuelExhausted ∨ ∃ x, Relation.TransGen (GEdge g) x x) :
    ∀ deps v e, stackPath g (actionId :: rs') →
      (∀ d ∈ deps, d ∈ g actionId) →
      checkDepsGo g fuel actionId deps v (actionId :: rs') = .error e →
      e = .fuelExhausted ∨ ∃ x, Relation.TransGen (GEdge g) x x := by
  intro deps
  induction deps with
  | nil =>
    intro v e _ _ hcon
    rw [checkDepsGo] at hcon
    cases hcon
  | cons depId rest ih =>
    intro v e hpath hdeps hcon
    have hcyc_of_stack : depId ∈ actionId :: rs' →
        ∃ x, Relation.TransGen (GEdge g) x x := by
      intro hin
      have hrtg : Relation.ReflTransGen (GEdge g) depId actionId :=
        stackPath_mem hpath hin
      have hedge : GEdge g actionId depId := hdeps depId (List.mem_cons_self _ _)
      exact ⟨depId, Relation.TransGen.trans_right hrtg
        (Relation.TransGen.single hedge)⟩
    rw [checkDepsGo] at hcon
    by_cases hv : depId ∈ v
    · by_cases hrs : depId ∈ actionId :: rs'
      · exact Or.inr (hcyc_of_stack hrs)
      · simp only [if_pos hv, if_neg hrs] at hcon
        exact ih v e hpath (fun d hd => hdeps d (List.mem_cons_of_mem _ hd)) hcon
    · simp only [if_neg hv] at hcon
      cases hcc : checkCycleGo g fuel v (actionId :: rs') depId with
      | error e2 =>
        rw [hcc] at hcon
        have : e2 = e := by injection hcon
        rw [this] at hcc
        refine ihC v (actionId :: rs') depId e ?_ hcc
        exact ⟨hdeps depId (List.mem_cons_self _ _), hpath⟩
      | ok p =>
        obtain ⟨b2, v2⟩ := p
        rw [hcc] at hcon
        cases b2 with
        | true =>
          simp only at hcon
          exact absurd hcon (by simp)
        | false =>
          simp only at hcon
          by_cases hrs : depId ∈ actionId :: rs'
          · exact Or.inr (hcyc_of_stack hrs)
          · rw [if_neg hrs] at hcon
            exact ih v2 e hpath (fun d hd => hdeps d (List.mem_cons_of_mem _ hd)) hcon

/-- Soundness of checkCycleGo: any error besides fuel exhaustion reveals a
cycle of the adjacency. -/
theorem checkCycleGo_sound (g : String → List String) :
    ∀ fuel v rs n e, stackPath g (n :: rs) →
      checkCycleGo g fuel v rs n = .error e →
      e = .fuelExhausted ∨ ∃ x, Relation.TransGen (GEdge g) x x := by
  intro fuel
  induction fuel with
  | zero =>
    intro v rs n e _ hcon
    rw [checkCycleGo] at hcon
    have : GraphError.fuelExhausted = e := by injection hcon
    exact Or.inl this.symm
  | succ fuel ih =>
    intro v rs n e hpath hcon
    rw [checkCycleGo_succ] at hcon
    by_cases hm : n ∈ v
    · rw [if_pos hm] at hcon
      cases hcon
    · rw [if_neg hm] at hcon
      exact checkDepsGo_sound g fuel n rs ih (g n) (n :: v) e hpath
        (fun d hd => hd) hcon

/-- Soundness of the top-level loop. -/
theorem checkCyclesLoop_sound (g : String → List String) (fuel : Nat) :
    ∀ (rest : List TaskAction) (v : List String) (e : GraphError),
      checkCyclesLoop g fuel rest v = .error e →
      e = .fuelExhausted ∨ ∃ x, Relation.TransGen (GEdge g) x x := by
  intro rest
  induction rest with
  | nil =>
    intro v e hcon
    rw [checkCyclesLoop] at hcon
    cases hcon
  | cons a rest ih =>
    intro v e hcon
    rw [checkCyclesLoop] at hcon
    by_cases hm : a.id ∈ v
    · rw [if_pos hm] at hcon
      exact ih v e hcon
    · rw [if_neg hm] at hcon
      cases hcc : checkCycleGo g fuel v [] a.id with
      | error e2 =>
        rw [hcc] at hcon
        have : e2 = e := by injection hcon
        rw [this] at hcc
        exact checkCycleGo_sound g fuel v [] a.id e (by trivial) hcc
      | ok p =>
        obtain ⟨b2, v2⟩ := p
        rw [hcc] at hcon
        exact ih v2 e hcon

/-- The top-level loop never exhausts its fuel when the fuel exceeds the
size of the id universe. -/
theorem checkCyclesLoop_nf (g : String → List String) (Ufin : Finset String)
    (hg : ∀ x y, y ∈ g x → y ∈ Ufin) (fuel : Nat) (hfuel : Ufin.card < fuel) :
    ∀ (rest : List TaskAction) (v : List String),
      (∀ a ∈ rest, a.id ∈ Ufin) →
      checkCyclesLoop g fuel rest v ≠ .error .fuelExhausted := by
  intro rest
  induction rest with
  | nil =>
    intro v _ hcon
    rw [checkCyclesLoop] at hcon
    cases hcon
  | cons a rest ih =>
    intro v hids hcon
    rw [checkCyclesLoop] at hcon
    by_cases hm : a.id ∈ v
    · rw [if_pos hm] at hcon
      exact ih v (fun b hb => hids b (List.mem_cons_of_mem _ hb)) hcon
    · rw [if_neg hm] at hcon
      have hcard : (Ufin \ v.toFinset).card < fuel :=
        Nat.lt_of_le_of_lt (Finset.card_le_card (Finset.sdiff_subset)) hfuel
      cases hcc : checkCycleGo g fuel v [] a.id with
      | error e2 =>
        rw [hcc] at hcon
        have : e2 = .fuelExhausted := by injection hcon
        rw [this] at hcc
        exact checkCycleGo_nf g Ufin hg fuel v [] a.id
          (hids a (List.mem_cons_self _ _)) hcard hcc
      | ok p =>
        obtain ⟨b2, v2⟩ := p
        rw [hcc] at hcon
        exact ih v2 (fun b hb => hids b (List.mem_cons_of_mem _ hb)) hcon

/-! ### DFS completeness: a run that finishes without error certifies the
absence of cycles via a ranking of the finished nodes. -/

/-- Pushing a fresh node as grey preserves the ranking certificate. -/
theorem goodRank_push {g : String → List String} {V rs : List String}
    {r : String → Nat} {n : String} (hn : n ∉ V) (hgood : GoodRank g V rs r) :
    GoodRank g (n :: V) (n :: rs) r := by
  intro x hx hxrs
  have hxn : x ≠ n := fun h => hxrs (h ▸ List.mem_cons_self n rs)
  have hxV : x ∈ V := by
    rcases List.mem_cons.mp hx with h | h
    · exact absurd h hxn
    · exact h
  have hxrs' : x ∉ rs := fun h => hxrs (List.mem_cons_of_mem _ h)
  intro y hy
  obtain ⟨hyV, hyrs, hr⟩ := hgood x hxV hxrs' y hy
  refine ⟨List.mem_cons_of_mem _ hyV, ?_, hr⟩
  intro hyin
  rcases List.mem_cons.mp hyin with h | h
  · exact hn (h ▸ hyV)
  · exact hyrs h

/-- Finishing the grey top of the stack: if all its successors are finished,
a rank above all of them extends the certificate. -/
theorem goodRank_pop {g : String → List String} {V rs : List String}
    {r : String → Nat} {n : String} (hgood : GoodRank g V (n :: rs) r)
    (hn : n ∈ V) (hdeps : ∀ y ∈ g n, y ∈ V ∧ y ∉ n :: rs) :
    ∃ r', GoodRank g V rs r' := by
  classical
  refine ⟨fun x => if x = n then (g n).toFinset.sup r + 1 else r x, ?_⟩
  intro x hx hxrs
  by_cases hxn : x = n
  · subst hxn
    intro y hy
    obtain ⟨hyV, hyrs⟩ := hdeps y hy
    have hyn : y ≠ x := fun h => hyrs (h ▸ List.mem_cons_self x rs)
    refine ⟨hyV, fun h => hyrs (List.mem_cons_of_mem _ h), ?_⟩
    dsimp only
    rw [if_neg hyn, if_pos rfl]
    exact Nat.lt_succ_of_le (Finset.le_sup (List.mem_toFinset.mpr hy))
  · have hxrs' : x ∉ n :: rs := by
      intro h
      rcases List.mem_cons.mp h with h | h
      · exact hxn h
      · exact hxrs h
    intro y hy
    obtain ⟨hyV, hyrs, hr⟩ := hgood x hx hxrs' y hy
    have hyn : y ≠ n := fun h => hyrs (h ▸ List.mem_cons_self n rs)
    refine ⟨hyV, fun h => hyrs (List.mem_cons_of_mem _ h), ?_⟩
    dsimp only
    rw [if_neg hyn, if_neg hxn]
    exact hr

/-- With an empty grey stack the certificate forbids cycles through visited
nodes. -/
theorem goodRank_no_cycle {g : String → List String} {V : List String}
    {r : String → Nat} (hgood : GoodRank g V [] r) :
    ∀ x ∈ V, ¬ Relation.TransGen (GEdge g) x x := by
  have haux : ∀ x y, Relation.TransGen (GEdge g) x y → x ∈ V →
      y ∈ V ∧ r y < r x := by
    intro x y h
    induction h with
    | single he =>
      intro hx
      have := hgood x hx (List.not_mem_nil x) _ he
      exact ⟨this.1, this.2.2⟩
    | tail hxz he ih =>
      intro hx
      obtain ⟨hz, hrz⟩ := ih hx
      have := hgood _ hz (List.not_mem_nil _) _ he
      exact ⟨this.1, Nat.lt_trans this.2.2 hrz⟩
  intro x hx hcyc
  exact absurd (haux x x hcyc hx).2 (Nat.lt_irrefl _)

/-- Completeness invariant for the dependency loop: a run that returns ok
keeps the certificate, grows the visited set, and finishes every listed
dependency off the grey stack. -/
theorem checkDepsGo_complete (g : String → List String) (fuel : Nat)
    (actionId : String)
    (ihC : ∀ v rs n b v', (∀ x ∈ rs, x ∈ v) → (∃ r, GoodRank g v rs r) →
      checkCycleGo g fuel v rs n = .ok (b, v') →
      b = false ∧ (∃ r', GoodRank g v' rs r') ∧ v ⊆ v' ∧ n ∈ v' ∧
        (∀ x ∈ rs, x ∈ v')) :
    ∀ deps v rs b v', (∀ x ∈ rs, x ∈ v) → (∃ r, GoodRank g v rs r) →
      checkDepsGo g fuel actionId deps v rs = .ok (b, v') →
      b = false ∧ (∃ r', GoodRank g v' rs r') ∧ v ⊆ v' ∧
        (∀ x ∈ rs, x ∈ v') ∧ ∀ d ∈ deps, d ∈ v' ∧ d ∉ rs := by
  intro deps
  induction deps with
  | nil =>
    intro v rs b v' hrs hgood h
    rw [checkDepsGo] at h
    cases h
    exact ⟨rfl, hgood, fun x hx => hx, hrs, by intro d hd; cases hd⟩
  | cons depId rest ih =>
    intro v rs b v' hrs hgood h
    rw [checkDepsGo] at h
    by_cases hv : depId ∈ v
    · by_cases hrsd : depId ∈ rs
      · simp only [if_pos hv, if_pos hrsd] at h
        cases h
      · simp only [if_pos hv, if_neg hrsd] at h
        obtain ⟨hb, hgood', hsub, hrs', hdeps⟩ := ih v rs b v' hrs hgood h
        refine ⟨hb, hgood', hsub, hrs', ?_⟩
        intro d hd
        rcases List.mem_cons.mp hd with hEq | hmem
        · subst hEq
          exact ⟨hsub hv, hrsd⟩
        · exact hdeps d hmem
    · simp only [if_neg hv] at h
      cases hcc : checkCycleGo g fuel v rs depId with
      | error e =>
        rw [hcc] at h
        cases h
      | ok p =>
        obtain ⟨b2, v2⟩ := p
        rw [hcc] at h
        obtain ⟨hb2, hgood2, hsub2, hd2, hrs2⟩ := ihC v rs depId b2 v2 hrs hgood hcc
        subst hb2
        simp only at h
        by_cases hrsd : depId ∈ rs
        · rw [if_pos hrsd] at h
          cases h
        · rw [if_neg hrsd] at h
          obtain ⟨hb, hgood', hsub, hrs', hdeps⟩ := ih v2 rs b v' hrs2 hgood2 h
          refine ⟨hb, hgood', fun x hx => hsub (hsub2 hx), hrs', ?_⟩
          intro d hd
          rcases List.mem_cons.mp hd with hEq | hmem
          · subst hEq
            exact ⟨hsub hd2, hrsd⟩
          · exact hdeps d hmem

/-- Completeness invariant of checkCycleGo: an ok run extends the ranking
certificate over the enlarged visited set and never returns true. -/
theorem checkCycleGo_complete (g : String → List String) :
    ∀ fuel v rs n b v', (∀ x ∈ rs, x ∈ v) → (∃ r, GoodRank g v rs r) →
      checkCycleGo g fuel v rs n = .ok (b, v') →
      b = false ∧ (∃ r', GoodRank g v' rs r') ∧ v ⊆ v' ∧ n ∈ v' ∧
        (∀ x ∈ rs, x ∈ v') := by
  intro fuel
  induction fuel with
  | zero =>
    intro v rs n b v' _ _ h
    rw [checkCycleGo] at h
    cases h
  | succ fuel ih =>
    intro v rs n b v' hrs hgood h
    rw [checkCycleGo_succ] at h
    by_cases hm : n ∈ v
    · rw [if_pos hm] at h
      cases h
      exact ⟨rfl, hgood, fun x hx => hx, hm, hrs⟩
    · rw [if_neg hm] at h
      obtain ⟨r, hr⟩ := hgood
      have hpush : GoodRank g (n :: v) (n :: rs) r := goodRank_push hm hr
      have hrs' : ∀ x ∈ n :: rs, x ∈ n :: v := by
        intro x hx
        rcases List.mem_cons.mp hx with hEq | hmem
        · rw [hEq]; exact List.mem_cons_self _ _
        · exact List.mem_cons_of_mem _ (hrs x hmem)
      obtain ⟨hb, ⟨r'', hgood''⟩, hsub, hrsin, hdeps⟩ :=
        checkDepsGo_complete g fuel n ih (g n) (n :: v) (n :: rs) b v'
          hrs' ⟨r, hpush⟩ h
      have hnv' : n ∈ v' := hsub (List.mem_cons_self _ _)
      obtain ⟨r', hgood'⟩ := goodRank_pop hgood'' hnv' hdeps
      refine ⟨hb, ⟨r', hgood'⟩, fun x hx => hsub (List.mem_cons_of_mem _ hx),
        hnv', ?_⟩
      intro x hx
      exact hsub (List.mem_cons_of_mem _ (hrs x hx))

/-- Completeness invariant of the top-level loop: an ok run certifies a
ranking of all visited nodes and visits every action id. -/
theorem checkCyclesLoop_complete (g : String → List String) (fuel : Nat) :
    ∀ (rest : List TaskAction) (v : List String),
      (∃ r, GoodRank g v [] r) →
      ∀ v', checkCyclesLoop g fuel rest v = .ok v' →
        (∃ r', GoodRank g v' [] r') ∧ v ⊆ v' ∧ ∀ a ∈ rest, a.id ∈ v' := by
  intro rest
  induction rest with
  | nil =>
    intro v hgood v' h
    rw [checkCyclesLoop] at h
    cases h
    exact ⟨hgood, fun x hx => hx, by intro a ha; cases ha⟩
  | cons a rest ih =>
    intro v hgood v' h
    rw [checkCyclesLoop] at h
    by_cases hm : a.id ∈ v
    · rw [if_pos hm] at h
      obtain ⟨hgood', hsub, hids⟩ := ih v hgood v' h
      refine ⟨hgood', hsub, ?_⟩
      intro b hb
      rcases List.mem_cons.mp hb with hEq | hmem
      · rw [hEq]; exact hsub hm
      · exact hids b hmem
    · rw [if_neg hm] at h
      cases hcc : checkCycleGo g fuel v [] a.id with
      | error e =>
        rw [hcc] at h
        cases h
      | ok p =>
        obtain ⟨b2, v2⟩ := p
        rw [hcc] at h
        obtain ⟨-, hgood2, hsub2, haid, -⟩ :=
          checkCycleGo_complete g fuel v [] a.id b2 v2
            (by intro x hx; cases hx) hgood hcc
        obtain ⟨hgood', hsub, hids⟩ := ih v2 hgood2 v' h
        refine ⟨hgood', fun x hx => hsub (hsub2 hx), ?_⟩
        intro b hb
        rcases List.mem_cons.mp hb with hEq | hmem
        · rw [hEq]; exact hsub haid
        · exact hids b hmem

/-! ### The cycle check decides acyclicity of the traversed adjacency. -/

/-- A transitive step starts with an edge. -/
theorem transGen_head_edge {α : Type} {r : α → α → Prop} {a b : α}
    (h : Relation.TransGen r a b) : ∃ c, r a c := by
  induction h with
  | single h => exact ⟨_, h⟩
  | tail _ _ ih => exact ih

/-- An actionMap hit is an action of the collection carrying the looked-up
id. -/
theorem actionMapGet_some {actions : List TaskAction} {i : String}
    {a : TaskAction} (h : actionMapGet actions i = some a) :
    a ∈ actions ∧ a.id = i := by
  unfold actionMapGet at h
  exact ⟨List.mem_reverse.mp (List.mem_of_find?_eq_some h),
    by simpa using List.find?_some h⟩

/-- The length of a flatMap is the sum of the mapped lengths. -/
theorem length_flatMap_eq_sum {α β : Type} (l : List α) (f : α → List β) :
    (l.flatMap f).length = (l.map (fun a => (f a).length)).sum := by
  induction l with
  | nil => rfl
  | cons a rest ih => simp [List.flatMap_cons, ih]

/-- TaskService.checkForDependencyCycles succeeds exactly on collections
whose actionMap adjacency (dependsOn through the last occurrence of each
id) is acyclic — regardless of which component the cycle lies in, because
the loop roots a DFS at every unvisited action. -/
theorem checkForDependencyCycles_ok_iff (actions : List TaskAction) :
    checkForDependencyCycles actions = .ok () ↔
      ¬ ∃ x, Relation.TransGen (GEdge (mapDeps actions)) x x := by
  have hg : ∀ x y, y ∈ mapDeps actions x →
      y ∈ (actionIdsOf actions ++ actions.flatMap getDeps).toFinset := by
    intro x y hy
    unfold mapDeps at hy
    cases hget : actionMapGet actions x with
    | none => rw [hget] at hy; cases hy
    | some a =>
      rw [hget] at hy
      rw [List.mem_toFinset, List.mem_append]
      refine Or.inr ?_
      rw [List.mem_flatMap]
      exact ⟨a, (actionMapGet_some hget).1, hy⟩
  have hroots : ∀ a ∈ actions,
      a.id ∈ (actionIdsOf actions ++ actions.flatMap getDeps).toFinset := by
    intro a ha
    rw [List.mem_toFinset, List.mem_append]
    refine Or.inl ?_
    rw [actionIdsOf, List.mem_map]
    exact ⟨a, ha, rfl⟩
  have hfuel : ((actionIdsOf actions ++ actions.flatMap getDeps).toFinset).card <
      depsFuel actions := by
    calc ((actionIdsOf actions ++ actions.flatMap getDeps).toFinset).card
        ≤ (actionIdsOf actions ++ actions.flatMap getDeps).length :=
          List.toFinset_card_le _
      _ = actions.length + (actions.map (fun a => (getDeps a).length)).sum := by
          rw [List.length_append, actionIdsOf, List.length_map,
            length_flatMap_eq_sum]
      _ < depsFuel actions := by rw [depsFuel]; omega
  unfold checkForDependencyCycles
  cases hloop : checkCyclesLoop (mapDeps actions) (depsFuel actions) actions [] with
  | ok v =>
    constructor
    · intro _
      obtain ⟨⟨r, hgood⟩, -, hids⟩ := checkCyclesLoop_complete
        (mapDeps actions) (depsFuel actions) actions []
        ⟨fun _ => 0, by intro x hx; cases hx⟩ v hloop
      rintro ⟨x, hcyc⟩
      obtain ⟨y, hy⟩ := transGen_head_edge hcyc
      have hx : x ∈ v := by
        unfold GEdge mapDeps at hy
        cases hget : actionMapGet actions x with
        | none => rw [hget] at hy; cases hy
        | some a =>
          obtain ⟨hmem, hid⟩ := actionMapGet_some hget
          rw [← hid]
          exact hids a hmem
      exact goodRank_no_cycle hgood x hx hcyc
    · intro _
      rfl
  | error e =>
    constructor
    · intro h
      cases h
    · intro hnc
      exfalso
      rcases checkCyclesLoop_sound (mapDeps actions) (depsFuel actions)
        actions [] e hloop with hfe | hcyc
      · rw [hfe] at hloop
        exact checkCyclesLoop_nf (mapDeps actions) _ hg (depsFuel actions)
          hfuel actions [] hroots hloop
      · exact hnc hcyc

/-- With duplicate-free ids the actionMap adjacency coincides with the
specification edge relation of dependsOn. -/
theorem gEdge_iff_dependsEdge {actions : List TaskAction}
    (hnd : (actionIdsOf actions).Nodup) (x y : String) :
    GEdge (mapDeps actions) x y ↔ DependsEdge actions x y := by
  unfold GEdge mapDeps DependsEdge
  constructor
  · intro hy
    cases hget : actionMapGet actions x with
    | none => rw [hget] at hy; cases hy
    | some a =>
      rw [hget] at hy
      obtain ⟨hm, hid⟩ := actionMapGet_some hget
      exact ⟨a, hm, hid, hy⟩
  · rintro ⟨a, ha, hid, hy⟩
    cases hget : actionMapGet actions x with
    | none =>
      exfalso
      unfold actionMapGet at hget
      have := List.find?_eq_none.mp hget a (List.mem_reverse.mpr ha)
      simp [hid] at this
    | some c =>
      obtain ⟨hcm, hcid⟩ := actionMapGet_some hget
      have hca : c = a := id_inj_of_nodup hnd hcm ha (by rw [hcid, hid])
      rw [hca]
      exact hy

/-- With duplicate-free ids the two cycle notions coincide. -/
theorem gCycle_iff_dependsCycle {actions : List TaskAction}
    (hnd : (actionIdsOf actions).Nodup) :
    (∃ x, Relation.TransGen (GEdge (mapDeps actions)) x x) ↔
      HasDependsCycle actions := by
  unfold HasDependsCycle
  refine exists_congr (fun x => ⟨?_, ?_⟩)
  · intro h
    exact Relation.TransGen.mono (fun a b => (gEdge_iff_dependsEdge hnd a b).mp) h
  · intro h
    exact Relation.TransGen.mono (fun a b => (gEdge_iff_dependsEdge hnd a b).mpr) h

/-- firstMissing finds nothing exactly when every entry is present. -/
theorem firstMissing_eq_none_iff {actionIds : List String} :
    ∀ {l : List String}, firstMissing actionIds l = none ↔ ∀ d ∈ l, d ∈ actionIds := by
  intro l
  induction l with
  | nil => simp [firstMissing]
  | cons d rest ih =>
    rw [firstMissing]
    by_cases hd : d ∈ actionIds
    · rw [if_pos hd, ih]
      constructor
      · intro h x hx
        rcases List.mem_cons.mp hx with hEq | hmem
        · rw [hEq]; exact hd
        · exact h x hmem
      · intro h x hx
        exact h x (List.mem_cons_of_mem _ hx)
    · rw [if_neg hd]
      constructor
      · intro h
        cases h
      · intro h
        exact absurd (h d (List.mem_cons_self _ _)) hd

/-- The TaskService referential-integrity loop succeeds exactly when every
dependsOn entry of every action is an existing id. -/
theorem tsCheckRefsLoop_ok_iff (actionIds : List String) :
    ∀ (acts : List TaskAction), tsCheckRefsLoop actionIds acts = .ok () ↔
      ∀ a ∈ acts, ∀ d ∈ getDeps a, d ∈ actionIds := by
  intro acts
  induction acts with
  | nil => simp [tsCheckRefsLoop]
  | cons a rest ih =>
    rw [tsCheckRefsLoop]
    cases hfm : firstMissing actionIds (getDeps a) with
    | some d =>
      constructor
      · intro h
        cases h
      · intro h
        exfalso
        have := firstMissing_eq_none_iff.mpr (h a (List.mem_cons_self _ _))
        rw [this] at hfm
        cases hfm
    | none =>
      rw [ih]
      constructor
      · intro h x hx
        rcases List.mem_cons.mp hx with hEq | hmem
        · rw [hEq]
          exact firstMissing_eq_none_iff.mp hfm
        · exact h x hmem
      · intro h x hx
        exact h x (List.mem_cons_of_mem _ hx)

/-- validateActionDependencies succeeds exactly when both phases succeed. -/
theorem validate_ok_iff (actions : List TaskAction) :
    validateActionDependencies actions = .ok () ↔
      (tsCheckRefsLoop (actionIdsOf actions) actions = .ok () ∧
       checkForDependencyCycles actions = .ok ()) := by
  unfold validateActionDependencies
  cases href : tsCheckRefsLoop (actionIdsOf actions) actions with
  | error e =>
    constructor
    · intro h
      cases h
    · rintro ⟨h1, -⟩
      cases h1
  | ok u =>
    cases u
    simp only [true_and]

/-- Claim C1: with duplicate-free ids, TaskService.validateActionDependencies
raises an error exactly when some dependsOn entry references an absent id
or the dependsOn relation has a cycle — including cycles in components
disconnected from the first actions in iteration order, since the loop
roots a DFS at every unvisited action. -/
theorem validate_error_iff (actions : List TaskAction)
    (hnd : (actionIdsOf actions).Nodup) :
    validateActionDependencies actions ≠ .ok () ↔
      ((∃ a ∈ actions, ∃ d ∈ getDeps a, d ∉ actionIdsOf actions) ∨
        HasDependsCycle actions) := by
  rw [Ne, validate_ok_iff, tsCheckRefsLoop_ok_iff, checkForDependencyCycles_ok_iff]
  constructor
  · intro h
    by_cases h1 : ∀ a ∈ actions, ∀ d ∈ getDeps a, d ∈ actionIdsOf actions
    · refine Or.inr ?_
      rw [← gCycle_iff_dependsCycle hnd]
      by_contra hnc
      exact h ⟨h1, hnc⟩
    · refine Or.inl ?_
      push_neg at h1
      exact h1
  · rintro (⟨a, ha, d, hd, hnotin⟩ | hcyc) ⟨h1, h2⟩
    · exact hnotin (h1 a ha d hd)
    · exact h2 ((gCycle_iff_dependsCycle hnd).mpr hcyc)

/-- Witness for C1: the collection C, D, A, B where the A/B cycle lies in a
component disconnected from the first actions in iteration order — the
validator still rejects it. -/
theorem validate_error_iff_witness :
    ((actionIdsOf exDisconnectedCycle).Nodup ∧
      validateActionDependencies exDisconnectedCycle =
        .error (.cycle "B" "A")) ∧
    (validateActionDependencies exDisconnectedCycle ≠ .ok () ↔
      ((∃ a ∈ exDisconnectedCycle, ∃ d ∈ getDeps a,
          d ∉ actionIdsOf exDisconnectedCycle) ∨
        HasDependsCycle exDisconnectedCycle)) :=
  ⟨⟨by decide, by decide⟩, validate_error_iff exDisconnectedCycle (by decide)⟩

/-! ### The handleSave DFS variant: basic invariants and completeness. -/

/-- The handleSave dependency loop only grows the visited set. -/
theorem hsCheckDeps_mono (g : String → List String) (fuel : Nat)
    (ihC : ∀ v rs n b v', hsCheckCycle g fuel v rs n = some (b, v') → v ⊆ v') :
    ∀ deps v rs b v', hsCheckDeps g fuel deps v rs = some (b, v') → v ⊆ v' := by
  intro deps
  induction deps with
  | nil =>
    intro v rs b v' h
    rw [hsCheckDeps] at h
    cases h
    exact fun x hx => hx
  | cons depId rest ih =>
    intro v rs b v' h
    rw [hsCheckDeps] at h
    cases hcc : hsCheckCycle g fuel v rs depId with
    | none =>
      rw [hcc] at h
      cases h
    | some p =>
      obtain ⟨b2, v2⟩ := p
      rw [hcc] at h
      have hv2 := ihC v rs depId b2 v2 hcc
      cases b2 with
      | true =>
        simp only at h
        cases h
        exact hv2
      | false =>
        simp only at h
        exact fun x hx => ih v2 rs b v' h (hv2 hx)

/-- hsCheckCycle only grows the visited set. -/
theorem hsCheckCycle_mono (g : String → List String) :
    ∀ fuel v rs n b v', hsCheckCycle g fuel v rs n = some (b, v') → v ⊆ v' := by
  intro fuel
  induction fuel with
  | zero =>
    intro v rs n b v' h
    rw [hsCheckCycle] at h
    cases h
  | succ fuel ih =>
    intro v rs n b v' h
    rw [hsCheckCycle_succ] at h
    by_cases hrs : n ∈ rs
    · rw [if_pos hrs] at h
      cases h
      exact fun x hx => hx
    · rw [if_neg hrs] at h
      by_cases hm : n ∈ v
      · rw [if_pos hm] at h
        cases h
        exact fun x hx => hx
      · rw [if_neg hm] at h
        have := hsCheckDeps_mono g fuel ih (g n) (n :: v) (n :: rs) b v' h
        exact fun x hx => this (List.mem_cons_of_mem _ hx)

/-- The handleSave loop never runs out of fuel within the id universe. -/
theorem hsCheckDeps_nf (g : String → List String) (Ufin : Finset String)
    (fuel : Nat)
    (ihC : ∀ v rs n, n ∈ Ufin → (Ufin \ v.toFinset).card < fuel →
      hsCheckCycle g fuel v rs n ≠ none) :
    ∀ deps v rs, (∀ d ∈ deps, d ∈ Ufin) → (Ufin \ v.toFinset).card < fuel →
      hsCheckDeps g fuel deps v rs ≠ none := by
  intro deps
  induction deps with
  | nil =>
    intro v rs _ _ hcon
    rw [hsCheckDeps] at hcon
    cases hcon
  | cons depId rest ih =>
    intro v rs hdeps hcard hcon
    rw [hsCheckDeps] at hcon
    cases hcc : hsCheckCycle g fuel v rs depId with
    | none =>
      exact ihC v rs depId (hdeps depId (List.mem_cons_self _ _)) hcard hcc
    | some p =>
      obtain ⟨b2, v2⟩ := p
      rw [hcc] at hcon
      cases b2 with
      | true =>
        simp only at hcon
        exact absurd hcon (by simp)
      | false =>
        simp only at hcon
        have hsub : v.toFinset ⊆ v2.toFinset := by
          intro x hx
          rw [List.mem_toFinset] at hx ⊢
          exact hsCheckCycle_mono g fuel v rs depId false v2 hcc hx
        have hcard2 : (Ufin \ v2.toFinset).card < fuel :=
          Nat.lt_of_le_of_lt
            (Finset.card_le_card (Finset.sdiff_subset_sdiff (le_refl _) hsub))
            hcard
        exact ih v2 rs (fun d hd => hdeps d (List.mem_cons_of_mem _ hd))
          hcard2 hcon

/-- hsCheckCycle never runs out of fuel within the id universe. -/
theorem hsCheckCycle_nf (g : String → List String) (Ufin : Finset String)
    (hg : ∀ x y, y ∈ g x → y ∈ Ufin) :
    ∀ fuel v rs n, n ∈ Ufin → (Ufin \ v.toFinset).card < fuel →
      hsCheckCycle g fuel v rs n ≠ none := by
  intro fuel
  induction fuel with
  | zero =>
    intro v rs n _ hcard
    exact absurd hcard (Nat.not_lt_zero _)
  | succ fuel ih =>
    intro v rs n hn hcard hcon
    rw [hsCheckCycle_succ] at hcon
    by_cases hrs : n ∈ rs
    · rw [if_pos hrs] at hcon
      cases hcon
    · rw [if_neg hrs] at hcon
      by_cases hm : n ∈ v
      · rw [if_pos hm] at hcon
        cases hcon
      · rw [if_neg hm] at hcon
        have hmemdiff : n ∈ Ufin \ v.toFinset := by
          rw [Finset.mem_sdiff, List.mem_toFinset]
          exact ⟨hn, hm⟩
        have hcard2 : (Ufin \ (n :: v).toFinset).card < fuel := by
          rw [List.toFinset_cons, Finset.sdiff_insert, Finset.card_erase_of_mem hmemdiff]
          have h1 : (Ufin \ v.toFinset).card ≤ fuel := Nat.lt_succ_iff.mp hcard
          have h2 : 0 < (Ufin \ v.toFinset).card := Finset.card_pos.mpr ⟨n, hmemdiff⟩
          omega
        exact hsCheckDeps_nf g Ufin fuel ih (g n) (n :: v) (n :: rs)
          (fun d hd => hg n d hd) hcard2 hcon

/-- Completeness invariant for the handleSave dependency loop. -/
theorem hsCheckDeps_complete (g : String → List String) (fuel : Nat)
    (ihC : ∀ v rs n v', (∀ x ∈ rs, x ∈ v) → (∃ r, GoodRank g v rs r) →
      hsCheckCycle g fuel v rs n = some (false, v') →
      (∃ r', GoodRank g v' rs r') ∧ v ⊆ v' ∧ n ∈ v' ∧ n ∉ rs ∧
        (∀ x ∈ rs, x ∈ v')) :
    ∀ deps v rs v', (∀ x ∈ rs, x ∈ v) → (∃ r, GoodRank g v rs r) →
      hsCheckDeps g fuel deps v rs = some (false, v') →
      (∃ r', GoodRank g v' rs r') ∧ v ⊆ v' ∧ (∀ x ∈ rs, x ∈ v') ∧
        ∀ d ∈ deps, d ∈ v' ∧ d ∉ rs := by
  intro deps
  induction deps with
  | nil =>
    intro v rs v' hrs hgood h
    rw [hsCheckDeps] at h
    cases h
    exact ⟨hgood, fun x hx => hx, hrs, by intro d hd; cases hd⟩
  | cons depId rest ih =>
    intro v rs v' hrs hgood h
    rw [hsCheckDeps] at h
    cases hcc : hsCheckCycle g fuel v rs depId with
    | none =>
      rw [hcc] at h
      cases h
    | some p =>
      obtain ⟨b2, v2⟩ := p
      rw [hcc] at h
      cases b2 with
      | true =>
        simp only at h
        exact absurd h (by simp)
      | false =>
        simp only at h
        obtain ⟨hgood2, hsub2, hd2, hdrs2, hrs2⟩ :=
          ihC v rs depId v2 hrs hgood hcc
        obtain ⟨hgood', hsub, hrs', hdeps⟩ := ih v2 rs v' hrs2 hgood2 h
        refine ⟨hgood', fun x hx => hsub (hsub2 hx), hrs', ?_⟩
        intro d hd
        rcases List.mem_cons.mp hd with hEq | hmem
        · subst hEq
          exact ⟨hsub hd2, hdrs2⟩
        · exact hdeps d hmem

/-- Completeness invariant of hsCheckCycle: a false result extends the
ranking certificate. -/
theorem hsCheckCycle_complete (g : String → List String) :
    ∀ fuel v rs n v', (∀ x ∈ rs, x ∈ v) → (∃ r, GoodRank g v rs r) →
      hsCheckCycle g fuel v rs n = some (false, v') →
      (∃ r', GoodRank g v' rs r') ∧ v ⊆ v' ∧ n ∈ v' ∧ n ∉ rs ∧
        (∀ x ∈ rs, x ∈ v') := by
  intro fuel
  induction fuel with
  | zero =>
    intro v rs n v' _ _ h
    rw [hsCheckCycle] at h
    cases h
  | succ fuel ih =>
    intro v rs n v' hrs hgood h
    rw [hsCheckCycle_succ] at h
    by_cases hnrs : n ∈ rs
    · rw [if_pos hnrs] at h
      exact absurd h (by simp)
    · rw [if_neg hnrs] at h
      by_cases hm : n ∈ v
      · rw [if_pos hm] at h
        cases h
        exact ⟨hgood, fun x hx => hx, hm, hnrs, hrs⟩
      · rw [if_neg hm] at h
        obtain ⟨r, hr⟩ := hgood
        have hpush : GoodRank g (n :: v) (n :: rs) r := goodRank_push hm hr
        have hrs' : ∀ x ∈ n :: rs, x ∈ n :: v := by
          intro x hx
          rcases List.mem_cons.mp hx with hEq | hmem
          · rw [hEq]; exact List.mem_cons_self _ _
          · exact List.mem_cons_of_mem _ (hrs x hmem)
        obtain ⟨⟨r'', hgood''⟩, hsub, hrsin, hdeps⟩ :=
          hsCheckDeps_complete g fuel ih (g n) (n :: v) (n :: rs) v'
            hrs' ⟨r, hpush⟩ h
        have hnv' : n ∈ v' := hsub (List.mem_cons_self _ _)
        obtain ⟨r', hgood'⟩ := goodRank_pop hgood'' hnv' hdeps
        refine ⟨⟨r', hgood'⟩, fun x hx => hsub (List.mem_cons_of_mem _ hx),
          hnv', hnrs, ?_⟩
        intro x hx
        exact hsub (List.mem_cons_of_mem _ (hrs x hx))

/-! ### Editing dependencies preserves acyclicity. -/

/-- Replacing one action's dependsOn does not change the id list. -/
theorem setActionDeps_ids (actions : List TaskAction) (actionId : String)
    (dependsOn : List String) :
    actionIdsOf (setActionDeps actions actionId dependsOn) = actionIdsOf actions := by
  unfold actionIdsOf setActionDeps
  rw [List.map_map]
  refine List.map_congr_left (fun a _ => ?_)
  by_cases h : a.id = actionId
  · simp [h]
  · simp [h]

/-- The actionMap of the edited collection is the pointwise edit of the
original actionMap. -/
theorem actionMapGet_setActionDeps (actions : List TaskAction)
    (actionId : String) (dependsOn : List String) (x : String) :
    actionMapGet (setActionDeps actions actionId dependsOn) x =
      (actionMapGet actions x).map (fun a =>
        if a.id = actionId then { a with dependsOn := some dependsOn } else a) := by
  unfold actionMapGet setActionDeps
  rw [← List.map_reverse, List.find?_map]
  have hpred : ((fun a : TaskAction => decide (a.id = x)) ∘
      (fun a : TaskAction =>
        if a.id = actionId then { a with dependsOn := some dependsOn } else a)) =
      fun a : TaskAction => decide (a.id = x) := by
    funext a
    by_cases h : a.id = actionId
    · simp [h]
    · simp [h]
  rw [hpred]

/-- The tempDeps map of handleSave is the actionMap adjacency of the edited
collection. -/
theorem tempDeps_eq (actions : List TaskAction) (currentActionId : String)
    (selectedDeps : List String) :
    tempDeps actions currentActionId selectedDeps =
      mapDeps (setActionDeps actions currentActionId selectedDeps) := by
  funext x
  unfold tempDeps mapDeps
  rw [actionMapGet_setActionDeps]
  cases hget : actionMapGet actions x with
  | none => rfl
  | some a =>
    by_cases h : a.id = currentActionId
    · simp [h, getDeps]
    · simp [h]

/-- Edges of the edited adjacency either leave the edited node or were
already present. -/
theorem setActionDeps_edge_cases (actions : List TaskAction)
    (actionId : String) (dependsOn : List String) (x y : String)
    (h : GEdge (mapDeps (setActionDeps actions actionId dependsOn)) x y) :
    x = actionId ∨ GEdge (mapDeps actions) x y := by
  unfold GEdge mapDeps at h ⊢
  rw [actionMapGet_setActionDeps] at h
  cases hget : actionMapGet actions x with
  | none =>
    rw [hget] at h
    cases h
  | some a =>
    rw [hget] at h
    simp only [Option.map_some'] at h
    by_cases hid : a.id = actionId
    · rw [if_pos hid] at h
      obtain ⟨-, hax⟩ := actionMapGet_some hget
      exact Or.inl (by rw [← hax, hid])
    · rw [if_neg hid] at h
      exact Or.inr h

/-- A transitive chain of the perturbed relation either uses original edges
only or passes through the changed node. -/
theorem transGen_perturb {R S : String → String → Prop} {c : String}
    (hsub : ∀ x y, S x y → x = c ∨ R x y) :
    ∀ {x y : String}, Relation.TransGen S x y →
      (Relation.TransGen R x y ∧ Relation.TransGen S x y) ∨
        (Relation.ReflTransGen S x c ∧ Relation.TransGen S c y) := by
  intro x y h
  induction h with
  | single he =>
    rcases hsub _ _ he with hc | hR
    · subst hc
      exact Or.inr ⟨Relation.ReflTransGen.refl, Relation.TransGen.single he⟩
    · exact Or.inl ⟨Relation.TransGen.single hR, Relation.TransGen.single he⟩
  | tail _ he ih =>
    rcases ih with ⟨hR1, hS1⟩ | ⟨hrtg, htg⟩
    · rcases hsub _ _ he with hc | hR2
      · subst hc
        exact Or.inr ⟨hS1.to_reflTransGen, Relation.TransGen.single he⟩
      · exact Or.inl ⟨Relation.TransGen.tail hR1 hR2, Relation.TransGen.tail hS1 he⟩
    · exact Or.inr ⟨hrtg, Relation.TransGen.tail htg he⟩

/-- If the original relation is acyclic, any cycle of the perturbed relation
passes through the changed node. -/
theorem cycle_through_changed {R S : String → String → Prop} {c : String}
    (hsub : ∀ x y, S x y → x = c ∨ R x y)
    (hacyc : ¬ ∃ z, Relation.TransGen R z z)
    (hcyc : ∃ z, Relation.TransGen S z z) :
    Relation.TransGen S c c := by
  obtain ⟨z, hz⟩ := hcyc
  rcases transGen_perturb hsub hz with ⟨hR, -⟩ | ⟨hrtg, htg⟩
  · exact absurd ⟨z, hR⟩ hacyc
  · exact Relation.TransGen.trans_left htg hrtg

/-- An acyclic collection seen through the actionMap adjacency (needed to
transfer the specification-level hypothesis to the DFS graphs). -/
theorem acyclicDeps_of_cfdc_ok {actions : List TaskAction}
    (hnd : (actionIdsOf actions).Nodup)
    (h : checkForDependencyCycles actions = .ok ()) : AcyclicDeps actions := by
  intro hcyc
  exact (checkForDependencyCycles_ok_iff actions).mp h
    ((gCycle_iff_dependsCycle hnd).mpr hcyc)

/-- A successful handleUpdateDependencies commits exactly the edited
collection and that collection is acyclic. -/
theorem handleUpdate_ok_acyclic {actions : List TaskAction} {actionId : String}
    {dependsOn : List String} {newActions : List TaskAction}
    (hnd : (actionIdsOf actions).Nodup)
    (h : handleUpdateDependencies actions actionId dependsOn = .ok newActions) :
    newActions = setActionDeps actions actionId dependsOn ∧
      AcyclicDeps newActions := by
  unfold handleUpdateDependencies at h
  dsimp only at h
  cases hc : checkForDependencyCycles (setActionDeps actions actionId dependsOn) with
  | error e =>
    rw [hc] at h
    cases h
  | ok u =>
    cases u
    rw [hc] at h
    have heq : newActions = setActionDeps actions actionId dependsOn :=
      ((Except.ok.injEq _ _).mp h).symm
    refine ⟨heq, ?_⟩
    rw [heq]
    exact acyclicDeps_of_cfdc_ok
      (by rw [setActionDeps_ids]; exact hnd) hc

/-- When the hypothetical edit would create a cycle, handleUpdateDependencies
reports an error. -/
theorem handleUpdate_error_of_cycle {actions : List TaskAction}
    {actionId : String} {dependsOn : List String}
    (hnd : (actionIdsOf actions).Nodup)
    (hcyc : HasDependsCycle (setActionDeps actions actionId dependsOn)) :
    ∃ e, handleUpdateDependencies actions actionId dependsOn = .error e := by
  cases hc : checkForDependencyCycles (setActionDeps actions actionId dependsOn) with
  | error e =>
    refine ⟨e, ?_⟩
    unfold handleUpdateDependencies
    dsimp only
    rw [hc]
  | ok u =>
    exfalso
    cases u
    exact acyclicDeps_of_cfdc_ok (by rw [setActionDeps_ids]; exact hnd) hc hcyc

/-- A successful handleSave commits exactly the edited collection, and
starting from an acyclic collection the committed collection is acyclic:
any new cycle would contain the edited node, hence be reachable from the
DFS root, and the single-rooted cycle check would have returned true. -/
theorem handleSave_ok_acyclic {actions : List TaskAction}
    {currentActionId : String} {selectedDeps : List String}
    {newActions : List TaskAction}
    (hnd : (actionIdsOf actions).Nodup) (hacyc : AcyclicDeps actions)
    (h : handleSave actions currentActionId selectedDeps = .ok newActions) :
    newActions = setActionDeps actions currentActionId selectedDeps ∧
      AcyclicDeps newActions := by
  unfold handleSave at h
  cases hcc : hsCheckCycle (tempDeps actions currentActionId selectedDeps)
      (hsFuel actions) [] [] currentActionId with
  | none =>
    rw [hcc] at h
    cases h
  | some p =>
    obtain ⟨b, v⟩ := p
    rw [hcc] at h
    cases b with
    | true =>
      simp only at h
      cases h
    | false =>
      simp only at h
      have heq : newActions = setActionDeps actions currentActionId selectedDeps :=
        ((Except.ok.injEq _ _).mp h).symm
      refine ⟨heq, ?_⟩
      rw [tempDeps_eq] at hcc
      obtain ⟨⟨r, hgood⟩, -, hcidv, -, -⟩ :=
        hsCheckCycle_complete (mapDeps (setActionDeps actions currentActionId selectedDeps))
          (hsFuel actions) [] [] currentActionId v
          (by intro x hx; cases hx) ⟨fun _ => 0, by intro x hx; cases hx⟩ hcc
      rw [heq]
      intro hcsp
      have hgcyc : ∃ z, Relation.TransGen
          (GEdge (mapDeps (setActionDeps actions currentActionId selectedDeps))) z z :=
        (gCycle_iff_dependsCycle (by rw [setActionDeps_ids]; exact hnd)).mpr hcsp
      have hold : ¬ ∃ z, Relation.TransGen (GEdge (mapDeps actions)) z z := by
        intro hz
        exact hacyc ((gCycle_iff_dependsCycle hnd).mp hz)
      have hthrough := cycle_through_changed
        (setActionDeps_edge_cases actions currentActionId selectedDeps) hold hgcyc
      exact goodRank_no_cycle hgood currentActionId hcidv hthrough

/-- When the selected dependencies would create a cycle, handleSave refuses
to commit (starting from an acyclic collection). -/
theorem handleSave_error_of_cycle {actions : List TaskAction}
    {currentActionId : String} {selectedDeps : List String}
    (hnd : (actionIdsOf actions).Nodup) (hacyc : AcyclicDeps actions)
    (hcyc : HasDependsCycle (setActionDeps actions currentActionId selectedDeps)) :
    handleSave actions currentActionId selectedDeps = .error () := by
  cases hres : handleSave actions currentActionId selectedDeps with
  | error e =>
    cases e
    rfl
  | ok newActions =>
    exfalso
    obtain ⟨heq, hac⟩ := handleSave_ok_acyclic hnd hacyc hres
    rw [heq] at hac
    exact hac hcyc

/-- One dependency edit through either UI path preserves duplicate-free ids
and acyclicity. -/
theorem applyEdit_preserves {actions : List TaskAction} {op : DepEdit}
    (hnd : (actionIdsOf actions).Nodup) (hacyc : AcyclicDeps actions) :
    (actionIdsOf (applyEdit actions op)).Nodup ∧
      AcyclicDeps (applyEdit actions op) := by
  cases op with
  | viaPage actionId dependsOn =>
    cases hres : handleUpdateDependencies actions actionId dependsOn with
    | ok newActions =>
      obtain ⟨heq, hac⟩ := handleUpdate_ok_acyclic hnd hres
      simp only [applyEdit, hres, heq]
      exact ⟨by rw [setActionDeps_ids]; exact hnd, heq ▸ hac⟩
    | error e =>
      simp only [applyEdit, hres]
      exact ⟨hnd, hacyc⟩
  | viaEditor actionId dependsOn =>
    cases hres : handleSave actions actionId dependsOn with
    | ok newActions =>
      obtain ⟨heq, hac⟩ := handleSave_ok_acyclic hnd hacyc hres
      simp only [applyEdit, hres, heq]
      exact ⟨by rw [setActionDeps_ids]; exact hnd, heq ▸ hac⟩
    | error e =>
      simp only [applyEdit, hres]
      exact ⟨hnd, hacyc⟩

/-- Claim C2: starting from an acyclic collection with duplicate-free ids,
every sequence of dependency edits (handleUpdateDependencies commits or
DependencyEditor.handleSave commits, failures leaving the state untouched)
keeps the collection acyclic; whenever the hypothetical new dependsOn list
would create a cycle, both edit paths fail and the collection is left
unchanged; and any collection either path commits is acyclic. -/
theorem dependency_edits_preserve_acyclicity (actions : List TaskAction)
    (hnd : (actionIdsOf actions).Nodup) (hacyc : AcyclicDeps actions) :
    (∀ ops : List DepEdit, AcyclicDeps (applyEdits actions ops)) ∧
    (∀ actionId dependsOn,
      HasDependsCycle (setActionDeps actions actionId dependsOn) →
        (∃ e, handleUpdateDependencies actions actionId dependsOn = .error e) ∧
        handleSave actions actionId dependsOn = .error () ∧
        applyEdit actions (.viaPage actionId dependsOn) = actions ∧
        applyEdit actions (.viaEditor actionId dependsOn) = actions) ∧
    (∀ actionId dependsOn newActions,
      handleUpdateDependencies actions actionId dependsOn = .ok newActions →
        newActions = setActionDeps actions actionId dependsOn ∧
          AcyclicDeps newActions) ∧
    (∀ actionId dependsOn newActions,
      handleSave actions actionId dependsOn = .ok newActions →
        newActions = setActionDeps actions actionId dependsOn ∧
          AcyclicDeps newActions) := by
  refine ⟨?_, ?_, ?_, ?_⟩
  · have hgen : ∀ (ops : List DepEdit) (acts : List TaskAction),
        (actionIdsOf acts).Nodup → AcyclicDeps acts →
        AcyclicDeps (applyEdits acts ops) := by
      intro ops
      induction ops with
      | nil => intro acts _ hac; exact hac
      | cons op rest ih =>
        intro acts hn hac
        rw [applyEdits]
        obtain ⟨hn', hac'⟩ := applyEdit_preserves hn hac
        exact ih _ hn' hac'
    intro ops
    exact hgen ops actions hnd hacyc
  · intro actionId dependsOn hcyc
    obtain ⟨e, he⟩ := handleUpdate_error_of_cycle hnd hcyc
    have hs := handleSave_error_of_cycle hnd hacyc hcyc
    refine ⟨⟨e, he⟩, hs, ?_, ?_⟩
    · simp only [applyEdit, he]
    · simp only [applyEdit, hs]
  · intro actionId dependsOn newActions h
    exact handleUpdate_ok_acyclic hnd h
  · intro actionId dependsOn newActions h
    exact handleSave_ok_acyclic hnd hacyc h

/-- Witness for C2: on scenario 1, the edit sequence that first tries to
point A at D (a cycle, rejected by both paths) and then points B at A and
C keeps the collection acyclic. -/
theorem dependency_edits_preserve_acyclicity_witness :
    ((actionIdsOf scenario1).Nodup ∧ AcyclicDeps scenario1 ∧
      HasDependsCycle (setActionDeps scenario1 "A" ["D"])) ∧
    (AcyclicDeps (applyEdits scenario1
        [.viaPage "A" ["D"], .viaEditor "B" ["A", "C"]]) ∧
      handleSave scenario1 "A" ["D"] = .error () ∧
      applyEdit scenario1 (.viaPage "A" ["D"]) = scenario1) := by
  have hnd : (actionIdsOf scenario1).Nodup := by decide
  have hacyc : AcyclicDeps scenario1 := acyclicDeps_of_cfdc_ok hnd (by decide)
  have hAD : DependsEdge (setActionDeps scenario1 "A" ["D"]) "A" "D" :=
    ⟨{ scA with dependsOn := some ["D"] }, by decide, rfl, by decide⟩
  have hDB : DependsEdge (setActionDeps scenario1 "A" ["D"]) "D" "B" :=
    ⟨scD, by decide, rfl, by decide⟩
  have hBA : DependsEdge (setActionDeps scenario1 "A" ["D"]) "B" "A" :=
    ⟨scB, by decide, rfl, by decide⟩
  have hcyc : HasDependsCycle (setActionDeps scenario1 "A" ["D"]) :=
    ⟨"A", Relation.TransGen.tail
      (Relation.TransGen.tail (Relation.TransGen.single hAD) hDB) hBA⟩
  have h := dependency_edits_preserve_acyclicity scenario1 hnd hacyc
  exact ⟨⟨hnd, hacyc, hcyc⟩,
    h.1 [.viaPage "A" ["D"], .viaEditor "B" ["A", "C"]],
    (h.2.1 "A" ["D"] hcyc).2.1,
    (h.2.1 "A" ["D"] hcyc).2.2.1⟩

/-- Witness for the amended C7: scenario 1 is referentially intact and
acyclic, and the organizer places D (and every other action). -/
theorem organize_complete_on_acyclic_witness :
    ((∀ a ∈ scenario1, ∀ d ∈ getDeps a, d ∈ actionIdsOf scenario1) ∧
      AcyclicDeps scenario1 ∧ scD ∈ scenario1) ∧
    scD.id ∈ processedIds (organizeActions scenario1) :=
  ⟨⟨by decide, acyclicDeps_of_cfdc_ok (by decide) (by decide), by decide⟩,
    organize_complete_on_acyclic scenario1 (by decide)
      (acyclicDeps_of_cfdc_ok (by decide) (by decide)) scD (by decide)⟩
